import Mathlib

/-!
# RWModule: fragment queue and word cursor of `rw_module.c`

A shallow embedding of the queue/cursor core of the character device
`rwdev`: `rwdev_write` (Enqueue), `rwdev_read` (Dequeue) and
`buff_get_word` (Next), together with the helpers `is_word_separator`,
`seek_first_char` and `seek_separator`.

Modelling conventions.

* The circular list anchored at `buff_head` is a `List rw_buff_frag`
  written oldest node first: its head is `buff_head.prev`, following
  `->prev` walks the list left to right, and the `->prev` of the last
  element is `&buff_head`.  `list_add(new, &buff_head)` links the new
  node at `buff_head.next`, i.e. appends at the right end.
* A list node is identified by its address (`rw_buff_frag.addr`).  The
  pointer `curr_elem` is `none` for `&buff_head` and `some a` for the node
  at address `a`.
* Bytes are natural numbers; sizes and offsets are natural numbers (no
  fragment is large enough for `size_t`/`int` wrap-around to occur).
* `kmalloc` is assumed to succeed; the mutex is not modelled (every
  operation runs atomically).
-/

namespace RWModule

/-- Node `struct rw_buff_frag`.  `addr` is the address of the node (its
`list` member comes first, so node and list pointer coincide), `data` the
kmalloc'ed byte buffer, and `data_ptr` the distance of the C pointer
`data_ptr` from `data`. -/
structure rw_buff_frag where
  addr : Nat
  data_len : Nat
  data : List Nat
  data_ptr : Nat
deriving DecidableEq, Repr

/-- Global state: the list anchored at `buff_head` (oldest first) and the
word cursor `curr_elem` / `curr_offset`. -/
structure State where
  buff_head : List rw_buff_frag
  curr_elem : Option Nat
  curr_offset : Nat
deriving DecidableEq, Repr

/-- State set up by `rwdev_init`: `INIT_LIST_HEAD(&buff_head)`,
`curr_elem = &buff_head`, `curr_offset = 0`. -/
def rwdev_init : State :=
  { buff_head := [], curr_elem := none, curr_offset := 0 }

/-- Source `is_word_separator`: space, tab, line feed, carriage return. -/
def is_word_separator (c : Nat) : Bool :=
  c == 32 || c == 9 || c == 10 || c == 13

/-- Byte `*(frag->data_ptr + i)`.  A read outside the buffer yields 0 here;
the loops below only read below `data_len`. -/
def frag_byte (frag : rw_buff_frag) (i : Nat) : Nat :=
  frag.data.getD (frag.data_ptr + i) 0

/-- Loop of `seek_first_char`; the first argument counts the iterations
left before `c_offset < len` fails, the second is `c_offset`. -/
def seek_first_char_loop (start : Nat → Nat) : Nat → Nat → Int
  | 0, _ => -1
  | n + 1, c_offset =>
    if !is_word_separator (start c_offset) then (c_offset : Int)
    else seek_first_char_loop start n (c_offset + 1)

/-- Source `seek_first_char`: offset of the first non-separator byte in
`[offset, len)`, or -1. -/
def seek_first_char (start : Nat → Nat) (offset len : Nat) : Int :=
  seek_first_char_loop start (len - offset) offset

/-- Loop of `seek_separator`, arguments as in `seek_first_char_loop`. -/
def seek_separator_loop (start : Nat → Nat) : Nat → Nat → Int
  | 0, _ => -1
  | n + 1, c_offset =>
    if is_word_separator (start c_offset) then (c_offset : Int)
    else seek_separator_loop start n (c_offset + 1)

/-- Source `seek_separator`: offset of the first separator byte in
`[offset, len)`, or -1. -/
def seek_separator (start : Nat → Nat) (offset len : Nat) : Int :=
  seek_separator_loop start (len - offset) offset

/-- Contents of the buffer `*mem` handed back by `buff_get_word`. -/
inductive TokenBuf where
  /-- The pointer `*mem` was never assigned (return value 0). -/
  | unset
  /-- The `len` bytes placed by `memcpy` in front of the terminating NUL. -/
  | copied (bytes : List Nat)
  /-- The source range of `memcpy` leaves the fragment's `data` buffer. -/
  | overrun
deriving DecidableEq, Repr

/-- Effect of `memcpy(*mem, frag->data_ptr + start_offset, len)`. -/
def memcpy_frag (frag : rw_buff_frag) (start_offset len : Nat) : TokenBuf :=
  if frag.data_ptr + start_offset + len ≤ frag.data.length then
    TokenBuf.copied ((frag.data.drop (frag.data_ptr + start_offset)).take len)
  else TokenBuf.overrun

/-- Result of `buff_get_word`: new global state, return value `len`, and
the buffer `*mem`. -/
structure WordOut where
  st : State
  len : Nat
  mem : TokenBuf
deriving DecidableEq, Repr

/-- The `while(curr_elem != &buff_head)` loop of `buff_get_word`.  The
second argument is the part of the list from `curr_elem` to the newest
node (empty when `curr_elem == &buff_head`), the third is `curr_offset`;
`q` is the whole list, which the loop never modifies.  In the lengths,
`curr_offset <= start_offset < end_offset <= next_offset`, so the unsigned
subtractions of the source do not wrap. -/
def word_loop (q : List rw_buff_frag) : List rw_buff_frag → Nat → WordOut
  | [], curr_offset =>
    { st := { buff_head := q, curr_elem := none, curr_offset := curr_offset },
      len := 0, mem := TokenBuf.unset }
  | frag :: rest, curr_offset =>
    let start_offset := seek_first_char (frag_byte frag) curr_offset frag.data_len
    if start_offset < 0 then word_loop q rest 0
    else
      let end_offset := seek_separator (frag_byte frag) start_offset.toNat frag.data_len
      if end_offset < 0 then word_loop q rest 0
      else
        let next_offset := seek_first_char (frag_byte frag) end_offset.toNat frag.data_len
        let len : Nat :=
          if next_offset > 0 then (next_offset - (curr_offset : Int)).toNat
          else frag.data_len - curr_offset
        { st := { buff_head := q, curr_elem := some frag.addr,
                  curr_offset := curr_offset + len },
          len := len,
          mem := memcpy_frag frag start_offset.toNat len }

/-- Nodes from the one at address `a` to the newest one, `none` when no
linked node has that address. -/
def nodes_from : List rw_buff_frag → Nat → Option (List rw_buff_frag)
  | [], _ => none
  | frag :: rest, a => if frag.addr = a then some (frag :: rest) else nodes_from rest a

/-- Source `buff_get_word` (Next).  The result is `none` only when
`curr_elem` points at a node that is not linked in the list, where the
source dereferences a dangling pointer. -/
def buff_get_word (s : State) : Option WordOut :=
  match s.curr_elem with
  | none =>
    match s.buff_head with
    | [] => some { st := s, len := 0, mem := TokenBuf.unset }
    | frag :: rest => some (word_loop s.buff_head (frag :: rest) 0)
  | some a =>
    match nodes_from s.buff_head a with
    | none => none
    | some l => some (word_loop s.buff_head l s.curr_offset)

/-- Effect of `copy_to_user(buf, frag->data_ptr, to_read)` on the user
buffer when `n_copied` bytes are reported as not copied: the first
`to_read - n_copied` bytes at `buf` are overwritten. -/
def copy_to_user (buf : List Nat) (frag : rw_buff_frag) (to_read n_copied : Nat) : List Nat :=
  (frag.data.drop frag.data_ptr).take (to_read - n_copied) ++ buf.drop (to_read - n_copied)

/-- Result of `rwdev_read`: new global state, the user buffer at `buf`,
the return value `read_cnt`, and the number of `copy_to_user` calls. -/
structure ReadOut where
  st : State
  buf : List Nat
  read_cnt : Nat
  calls : Nat
deriving DecidableEq, Repr

/-- One iteration of the loop of `rwdev_read` with `elem` the oldest node
`frag` and `rest` the newer nodes.  `xfer k n` is what the `k`-th call of
`copy_to_user` (counted from 0) returns when asked for `n` bytes: the
number of bytes it could not copy (at most `n`). -/
def rwdev_read_body (xfer : Nat → Nat → Nat) (count : Nat) (frag : rw_buff_frag)
    (rest : List rw_buff_frag) (r : ReadOut) : ReadOut :=
  let to_read := count - r.read_cnt
  let to_read := if frag.data_len < to_read then frag.data_len else to_read
  let n_copied := min (xfer r.calls to_read) to_read
  let buf := copy_to_user r.buf frag to_read n_copied
  let to_read := to_read - n_copied
  if frag.data_len = to_read then
    { st := { buff_head := rest,
              curr_elem :=
                if r.st.curr_elem = some frag.addr then (rest.head?).map rw_buff_frag.addr
                else r.st.curr_elem,
              curr_offset := if r.st.curr_elem = some frag.addr then 0 else r.st.curr_offset },
      buf := buf, read_cnt := r.read_cnt + to_read, calls := r.calls + 1 }
  else
    { st := { buff_head :=
                { frag with data_len := frag.data_len - to_read,
                            data_ptr := frag.data_ptr + to_read } :: rest,
              curr_elem := r.st.curr_elem,
              curr_offset :=
                if r.st.curr_elem = some frag.addr then
                  (if r.st.curr_offset ≤ to_read then 0 else r.st.curr_offset - to_read)
                else r.st.curr_offset },
      buf := buf, read_cnt := r.read_cnt + to_read, calls := r.calls + 1 }

/-- Value of `to_read` in one iteration of the loop of `rwdev_read` after
`to_read -= n_copied`: the number of bytes confirmed as transferred. -/
def confirmed_len (xfer : Nat → Nat → Nat) (count : Nat) (frag : rw_buff_frag) (r : ReadOut) :
    Nat :=
  let to_read := count - r.read_cnt
  let to_read := if frag.data_len < to_read then frag.data_len else to_read
  to_read - min (xfer r.calls to_read) to_read

/-- Loop `while(elem != &buff_head && read_cnt < count)` of `rwdev_read`.
`elem` is always the oldest linked node, because every older node has been
unlinked.  The first argument bounds the number of iterations; the result
is `none` when that bound is used up while the loop condition still holds. -/
def rwdev_read_loop (xfer : Nat → Nat → Nat) (count : Nat) : Nat → ReadOut → Option ReadOut
  | 0, r =>
    match r.st.buff_head with
    | [] => some r
    | _ :: _ => if r.read_cnt < count then none else some r
  | fuel + 1, r =>
    match r.st.buff_head with
    | [] => some r
    | frag :: rest =>
      if r.read_cnt < count then
        rwdev_read_loop xfer count fuel (rwdev_read_body xfer count frag rest r)
      else some r

/-- Source `rwdev_read` (Dequeue) run for at most `fuel` loop iterations. -/
def rwdev_read (fuel : Nat) (xfer : Nat → Nat → Nat) (s : State) (buf : List Nat)
    (count : Nat) : Option ReadOut :=
  rwdev_read_loop xfer count fuel { st := s, buf := buf, read_cnt := 0, calls := 0 }

/-- Source `rwdev_write` (Enqueue).  `p` is the address `kmalloc` returns
for the new node, `payload` the `count` bytes at the user pointer `buf`,
and `n_copied` the value returned by `copy_from_user`.  The result is the
new state and the return value. -/
def rwdev_write (s : State) (p : Nat) (payload : List Nat) (n_copied : Nat) : State × Nat :=
  let count := payload.length
  let buff_frag : rw_buff_frag := { addr := p, data_len := count, data := payload, data_ptr := 0 }
  if n_copied ≠ 0 then (s, 0)
  else ({ s with buff_head := s.buff_head ++ [buff_frag] }, count)

/-- A transfer primitive that always copies everything. -/
def xfer_all : Nat → Nat → Nat := fun _ _ => 0

/-- Live bytes of a fragment: `data_len` bytes starting at `data_ptr`. -/
def live (frag : rw_buff_frag) : List Nat :=
  (frag.data.drop frag.data_ptr).take frag.data_len

/-- Live byte stream of a queue, oldest fragment first. -/
def stream (q : List rw_buff_frag) : List Nat :=
  (q.map live).flatten

/-- Total of the `data_len` fields of a queue. -/
def total_len (q : List rw_buff_frag) : Nat :=
  (q.map rw_buff_frag.data_len).sum

/-- ASCII codes of a string literal. -/
def ascii (s : String) : List Nat :=
  s.data.map Char.toNat

/-- Closed form of the state left by Dequeue when every transfer is
complete (used to reason about `rwdev_read_loop`): drop `c` bytes from the
front of the queue `q`, repairing the cursor `cur` / `off` node by node. -/
def drop_bytes : List rw_buff_frag → Option Nat → Nat → Nat → State
  | [], cur, off, _ => { buff_head := [], curr_elem := cur, curr_offset := off }
  | f :: rest, cur, off, c =>
    if c = 0 then { buff_head := f :: rest, curr_elem := cur, curr_offset := off }
    else if f.data_len ≤ c then
      drop_bytes rest (if cur = some f.addr then (rest.head?).map rw_buff_frag.addr else cur)
        (if cur = some f.addr then 0 else off) (c - f.data_len)
    else
      { buff_head := { f with data_len := f.data_len - c, data_ptr := f.data_ptr + c } :: rest,
        curr_elem := cur,
        curr_offset := if cur = some f.addr then (if off ≤ c then 0 else off - c) else off }

/-- A complete token of `frag` at or after offset `off`: a non-separator
byte followed, further on and below `data_len`, by a separator byte. -/
def has_word (frag : rw_buff_frag) (off : Nat) : Prop :=
  ∃ i j, off ≤ i ∧ i < j ∧ j < frag.data_len ∧
    is_word_separator (frag_byte frag i) = false ∧
    is_word_separator (frag_byte frag j) = true

/-- Offsets of a token of `frag` scanned from offset `o`: `start` is the
first non-separator byte at or after `o`, `e` the first separator byte after
`start`, and `nxt` the first non-separator byte after `e`, or `data_len`
when only separators follow. -/
def token_at (frag : rw_buff_frag) (o start e nxt : Nat) : Prop :=
  o ≤ start ∧ start < e ∧ e < nxt ∧ nxt ≤ frag.data_len ∧
  (∀ i, o ≤ i → i < start → is_word_separator (frag_byte frag i) = true) ∧
  (∀ i, start ≤ i → i < e → is_word_separator (frag_byte frag i) = false) ∧
  (∀ i, e ≤ i → i < nxt → is_word_separator (frag_byte frag i) = true) ∧
  (nxt < frag.data_len → is_word_separator (frag_byte frag nxt) = false)

/-- Fragments the loop of `buff_get_word` may scan when it starts on the
first node of `l` at offset `off`, each with the offset its scan starts
from: newer nodes are scanned from offset 0. -/
def scan_list : List rw_buff_frag → Nat → List (rw_buff_frag × Nat)
  | [], _ => []
  | f :: rest, off => (f, off) :: rest.map (fun g => (g, 0))

/-- Fragments one call of `buff_get_word` may scan, each with the offset
its scan starts from: every fragment from offset 0 when `curr_elem` is
`&buff_head`; otherwise the cursor's fragment from `curr_offset` and every
newer fragment from offset 0. -/
def scan_range (s : State) : List (rw_buff_frag × Nat) :=
  match s.curr_elem with
  | none => scan_list s.buff_head 0
  | some a =>
    match nodes_from s.buff_head a with
    | none => []
    | some l => scan_list l s.curr_offset

/-- Bytes `[a, b)` of the live region of a fragment. -/
def slice (frag : rw_buff_frag) (a b : Nat) : List Nat :=
  ((live frag).drop a).take (b - a)

/-- The pointer `curr_elem` is `&buff_head` or the address of a linked node. -/
def cursor_ok (s : State) : Prop :=
  ∀ a, s.curr_elem = some a → ∃ f ∈ s.buff_head, f.addr = a

/-- States reachable from the one set up by `rwdev_init` through Enqueue
(the new node gets an address no linked node has), Dequeue (any transfer
behaviour, whenever the call returns) and Next. -/
inductive Reachable : State → Prop
  | init : Reachable rwdev_init
  | enqueue (s : State) (p : Nat) (payload : List Nat) (n_copied : Nat) :
      Reachable s → (∀ f ∈ s.buff_head, f.addr ≠ p) →
      Reachable (rwdev_write s p payload n_copied).1
  | dequeue (s : State) (fuel : Nat) (xfer : Nat → Nat → Nat) (buf : List Nat) (count : Nat)
      (r : ReadOut) :
      Reachable s → rwdev_read fuel xfer s buf count = some r → Reachable r.st
  | next (s : State) (r : WordOut) :
      Reachable s → buff_get_word s = some r → Reachable r.st

/-- The cursor offset does not exceed the length of the node the cursor
references. -/
def offset_ok (s : State) : Prop :=
  ∀ f ∈ s.buff_head, s.curr_elem = some f.addr → s.curr_offset ≤ f.data_len

/-- Linked nodes have pairwise different addresses. -/
def addrs_nodup (s : State) : Prop :=
  (s.buff_head.map rw_buff_frag.addr).Nodup

/-- A series of Dequeue calls with the requested counts `counts`, each with
a transfer primitive that copies everything into the caller's buffer `buf`
and at most `fuel` loop iterations. -/
def rwdev_read_seq (fuel : Nat) (buf : List Nat) : State → List Nat → Option State
  | s, [] => some s
  | s, count :: counts =>
    match rwdev_read fuel xfer_all s buf count with
    | none => none
    | some r => rwdev_read_seq fuel buf r.st counts

/-- Nodes examined by the loop of `buff_get_word`, in the order in which
the loop examines them; the control flow is that of `word_loop`. -/
def word_loop_visited : List rw_buff_frag → Nat → List rw_buff_frag
  | [], _ => []
  | frag :: rest, curr_offset =>
    let start_offset := seek_first_char (frag_byte frag) curr_offset frag.data_len
    if start_offset < 0 then frag :: word_loop_visited rest 0
    else
      let end_offset := seek_separator (frag_byte frag) start_offset.toNat frag.data_len
      if end_offset < 0 then frag :: word_loop_visited rest 0
      else [frag]

/-- Nodes examined by one call of `buff_get_word`, in the order in which
the call examines them. -/
def buff_get_word_visited (s : State) : List rw_buff_frag :=
  match s.curr_elem with
  | none => word_loop_visited s.buff_head 0
  | some a =>
    match nodes_from s.buff_head a with
    | none => []
    | some l => word_loop_visited l s.curr_offset

/-- One pass of the scanner: consecutive calls of `buff_get_word`, with no
other operation in between, up to and including the first call that returns
0.  The result lists the return value and buffer of every call that returned
a token, in call order, and gives the state after the pass.  The first
argument bounds the number of calls. -/
def next_pass : Nat → State → Option (List (Nat × TokenBuf) × State)
  | 0, _ => none
  | fuel + 1, s =>
    match buff_get_word s with
    | none => none
    | some r =>
      if r.len = 0 then some ([], r.st)
      else
        match next_pass fuel r.st with
        | none => none
        | some (toks, t) => some ((r.len, r.mem) :: toks, t)

/-- Bound on the number of calls a pass can still make on the nodes `l`:
one per byte and one per node. -/
def scan_weight : List rw_buff_frag → Nat
  | [] => 0
  | g :: rest => g.data_len + 1 + scan_weight rest

/-- Offset from which one call of `buff_get_word` scans the linked node
`frag`, should the call get to it: `curr_offset` for the node `curr_elem`
points at, 0 for every other node. -/
def scan_offset (s : State) (frag : rw_buff_frag) : Nat :=
  if s.curr_elem = some frag.addr then s.curr_offset else 0

/-! ## Dequeue with a complete transfer primitive -/

theorem stream_cons (f : rw_buff_frag) (q : List rw_buff_frag) :
    stream (f :: q) = live f ++ stream q := by
  simp [stream]

theorem total_len_cons (f : rw_buff_frag) (q : List rw_buff_frag) :
    total_len (f :: q) = f.data_len + total_len q := by
  simp [total_len]

theorem live_length (f : rw_buff_frag) (h : f.data_ptr + f.data_len ≤ f.data.length) :
    (live f).length = f.data_len := by
  simp only [live, List.length_take, List.length_drop]
  omega

theorem stream_length (q : List rw_buff_frag)
    (hwf : ∀ f ∈ q, f.data_ptr + f.data_len ≤ f.data.length) :
    (stream q).length = total_len q := by
  induction q with
  | nil => rfl
  | cons f rest ih =>
    rw [stream_cons, total_len_cons, List.length_append,
      live_length f (hwf f (List.mem_cons_self _ _)),
      ih (fun g hg => hwf g (List.mem_cons_of_mem _ hg))]

theorem live_trim (f : rw_buff_frag) (c : Nat) :
    live { f with data_len := f.data_len - c, data_ptr := f.data_ptr + c } = (live f).drop c := by
  simp only [live, List.drop_take, List.drop_drop]

/-- A loop of `rwdev_read` whose count is already reached returns at once. -/
theorem rwdev_read_loop_done (xfer : Nat → Nat → Nat) (count fuel : Nat) (r : ReadOut)
    (h : count ≤ r.read_cnt) : rwdev_read_loop xfer count fuel r = some r := by
  have hn : ¬ r.read_cnt < count := by omega
  cases fuel <;> unfold rwdev_read_loop <;> split <;> simp [hn]

/-- With complete transfers the loop of `rwdev_read` ends within one
iteration per node, in the state `drop_bytes` describes. -/
theorem rwdev_read_loop_all (count : Nat) :
    ∀ (q : List rw_buff_frag) (fuel : Nat) (cur : Option Nat) (off : Nat) (buf : List Nat)
      (rc calls : Nat), q.length ≤ fuel → rc ≤ count →
      ∃ r, rwdev_read_loop xfer_all count fuel
            { st := { buff_head := q, curr_elem := cur, curr_offset := off },
              buf := buf, read_cnt := rc, calls := calls } = some r ∧
        r.st = drop_bytes q cur off (count - rc) ∧
        r.read_cnt = rc + min (count - rc) (total_len q) := by
  intro q
  induction q with
  | nil =>
    intro fuel cur off buf rc calls _ _
    refine ⟨{ st := { buff_head := [], curr_elem := cur, curr_offset := off },
              buf := buf, read_cnt := rc, calls := calls }, ?_, ?_, ?_⟩
    · cases fuel <;> rfl
    · rfl
    · simp [total_len]
  | cons f rest ih =>
    intro fuel cur off buf rc calls hfuel hrc
    by_cases hdone : count ≤ rc
    · refine ⟨_, rwdev_read_loop_done _ _ _ _ hdone, ?_, ?_⟩
      · have h0 : count - rc = 0 := by omega
        simp [drop_bytes, h0]
      · have h0 : count - rc = 0 := by omega
        simp [h0]
    · have hlt : rc < count := by omega
      obtain ⟨fuel, rfl⟩ : ∃ n, fuel = n + 1 := ⟨fuel - 1, by simp at hfuel; omega⟩
      have hc0 : count - rc ≠ 0 := by omega
      by_cases hdel : f.data_len ≤ count - rc
      · -- the node is consumed completely and unlinked
        have hbody : rwdev_read_body xfer_all count f rest
            { st := { buff_head := f :: rest, curr_elem := cur, curr_offset := off },
              buf := buf, read_cnt := rc, calls := calls }
            = { st := { buff_head := rest,
                        curr_elem := if cur = some f.addr then (rest.head?).map rw_buff_frag.addr
                                     else cur,
                        curr_offset := if cur = some f.addr then 0 else off },
                buf := copy_to_user buf f f.data_len 0,
                read_cnt := rc + f.data_len, calls := calls + 1 } := by
          by_cases heq : f.data_len < count - rc
          · simp [rwdev_read_body, xfer_all, heq]
          · have : f.data_len = count - rc := by omega
            simp [rwdev_read_body, xfer_all, ← this]
        obtain ⟨r, hr, hst, hcnt⟩ := ih fuel
          (if cur = some f.addr then (rest.head?).map rw_buff_frag.addr else cur)
          (if cur = some f.addr then 0 else off) (copy_to_user buf f f.data_len 0)
          (rc + f.data_len) (calls + 1) (by simp at hfuel; omega) (by omega)
        refine ⟨r, ?_, ?_, ?_⟩
        · rw [rwdev_read_loop]
          simp only [hlt, if_true, hbody]
          exact hr
        · rw [hst]
          have : count - (rc + f.data_len) = count - rc - f.data_len := by omega
          simp [drop_bytes, hc0, hdel, this]
        · rw [hcnt, total_len_cons]
          omega
      · -- the node is trimmed and the requested count is reached
        have hlt2 : count - rc < f.data_len := by omega
        have hne : ¬ f.data_len = count - rc := by omega
        have hbody : rwdev_read_body xfer_all count f rest
            { st := { buff_head := f :: rest, curr_elem := cur, curr_offset := off },
              buf := buf, read_cnt := rc, calls := calls }
            = { st := { buff_head :=
                          { f with data_len := f.data_len - (count - rc),
                                   data_ptr := f.data_ptr + (count - rc) } :: rest,
                        curr_elem := cur,
                        curr_offset :=
                          if cur = some f.addr then
                            (if off ≤ count - rc then 0 else off - (count - rc))
                          else off },
                buf := copy_to_user buf f (count - rc) 0,
                read_cnt := rc + (count - rc), calls := calls + 1 } := by
          have hnl : ¬ f.data_len < count - rc := by omega
          simp [rwdev_read_body, xfer_all, hnl, hne]
        have hloop := rwdev_read_loop_done xfer_all count fuel _
          (show count ≤ (rwdev_read_body xfer_all count f rest
            { st := { buff_head := f :: rest, curr_elem := cur, curr_offset := off },
              buf := buf, read_cnt := rc, calls := calls }).read_cnt by rw [hbody]; simp; omega)
        generalize hr1 : rwdev_read_body xfer_all count f rest
            { st := { buff_head := f :: rest, curr_elem := cur, curr_offset := off },
              buf := buf, read_cnt := rc, calls := calls } = r1 at hbody hloop
        refine ⟨r1, ?_, ?_, ?_⟩
        · rw [rwdev_read_loop]
          simp only [hlt, if_true, hr1]
          exact hloop
        · rw [hbody]
          simp [drop_bytes, hc0, hdel]
        · rw [hbody, total_len_cons]
          simp only []
          omega

/-- Dequeue with complete transfers, started in any state, in closed form. -/
theorem rwdev_read_all (s : State) (buf : List Nat) (count fuel : Nat)
    (hfuel : s.buff_head.length ≤ fuel) :
    ∃ r, rwdev_read fuel xfer_all s buf count = some r ∧
      r.st = drop_bytes s.buff_head s.curr_elem s.curr_offset count ∧
      r.read_cnt = min count (total_len s.buff_head) := by
  obtain ⟨r, h1, h2, h3⟩ :=
    rwdev_read_loop_all count s.buff_head fuel s.curr_elem s.curr_offset buf 0 0 hfuel
      (Nat.zero_le _)
  exact ⟨r, h1, by simpa using h2, by simpa using h3⟩

theorem drop_bytes_stream :
    ∀ (q : List rw_buff_frag) (cur : Option Nat) (off c : Nat),
      (∀ f ∈ q, f.data_ptr + f.data_len ≤ f.data.length) →
      stream (drop_bytes q cur off c).buff_head = (stream q).drop (min c (total_len q)) := by
  intro q
  induction q with
  | nil => intro cur off c _; simp [drop_bytes, stream]
  | cons f rest ih =>
    intro cur off c hwf
    have hf := live_length f (hwf f (List.mem_cons_self _ _))
    have hrest : ∀ g ∈ rest, g.data_ptr + g.data_len ≤ g.data.length :=
      fun g hg => hwf g (List.mem_cons_of_mem _ hg)
    by_cases hc0 : c = 0
    · simp [drop_bytes, hc0]
    · by_cases hdel : f.data_len ≤ c
      · simp only [drop_bytes, hc0, hdel, if_true, if_false]
        rw [ih _ _ _ hrest, stream_cons, total_len_cons]
        have hm : min c (f.data_len + total_len rest)
            = (live f).length + min (c - f.data_len) (total_len rest) := by
          rw [hf]; omega
        rw [hm, List.drop_append]
      · simp only [drop_bytes, hc0, hdel, if_false]
        rw [stream_cons, stream_cons, live_trim, total_len_cons]
        have hm : min c (f.data_len + total_len rest) = c := by omega
        rw [hm, List.drop_append_of_le_length (by omega)]

theorem drop_bytes_shape :
    ∀ (q : List rw_buff_frag) (cur : Option Nat) (off c : Nat),
      ∃ k, (drop_bytes q cur off c).buff_head = q.drop k ∨
        ∃ f rest j, q.drop k = f :: rest ∧ 0 < j ∧ j < f.data_len ∧
          (drop_bytes q cur off c).buff_head
            = { f with data_len := f.data_len - j, data_ptr := f.data_ptr + j } :: rest := by
  intro q
  induction q with
  | nil => intro cur off c; exact ⟨0, Or.inl (by simp [drop_bytes])⟩
  | cons f rest ih =>
    intro cur off c
    by_cases hc0 : c = 0
    · exact ⟨0, Or.inl (by simp [drop_bytes, hc0])⟩
    · by_cases hdel : f.data_len ≤ c
      · obtain ⟨k, hk⟩ := ih (if cur = some f.addr then (rest.head?).map rw_buff_frag.addr else cur)
          (if cur = some f.addr then 0 else off) (c - f.data_len)
        refine ⟨k + 1, ?_⟩
        simpa [drop_bytes, hc0, hdel] using hk
      · refine ⟨0, Or.inr ⟨f, rest, c, rfl, by omega, by omega, ?_⟩⟩
        simp [drop_bytes, hc0, hdel]

theorem drop_bytes_total :
    ∀ (q : List rw_buff_frag) (cur : Option Nat) (off c : Nat), c ≤ total_len q →
      total_len (drop_bytes q cur off c).buff_head = total_len q - c := by
  intro q
  induction q with
  | nil => intro cur off c _; simp [drop_bytes, total_len]
  | cons f rest ih =>
    intro cur off c hc
    rw [total_len_cons] at hc
    by_cases hc0 : c = 0
    · simp [drop_bytes, hc0]
    · by_cases hdel : f.data_len ≤ c
      · simp only [drop_bytes, hc0, hdel, if_true, if_false]
        rw [ih _ _ _ (by omega), total_len_cons]
        omega
      · simp only [drop_bytes, hc0, hdel, if_false]
        rw [total_len_cons, total_len_cons]
        simp only []
        omega

theorem drop_bytes_split :
    ∀ (q : List rw_buff_frag) (cur : Option Nat) (off n m : Nat),
      drop_bytes (drop_bytes q cur off n).buff_head (drop_bytes q cur off n).curr_elem
          (drop_bytes q cur off n).curr_offset m
        = drop_bytes q cur off (n + m) := by
  intro q
  induction q with
  | nil => intro cur off n m; simp [drop_bytes]
  | cons f rest ih =>
    intro cur off n m
    by_cases hn0 : n = 0
    · subst hn0
      simp [drop_bytes]
    · by_cases hdel : f.data_len ≤ n
      · have hnm : n + m ≠ 0 := by omega
        have hdel2 : f.data_len ≤ n + m := by omega
        have hsub : n + m - f.data_len = (n - f.data_len) + m := by omega
        simp only [drop_bytes, hn0, hdel, hnm, hdel2, if_true, if_false, hsub]
        exact ih _ _ _ _
      · by_cases hm0 : m = 0
        · subst hm0
          simp [drop_bytes, hn0, hdel]
        · have hnm : n + m ≠ 0 := by omega
          by_cases hdel2 : f.data_len ≤ n + m
          · have h1 : f.data_len - n ≤ m := by omega
            have hsub : m - (f.data_len - n) = n + m - f.data_len := by omega
            by_cases hcur : cur = some f.addr <;>
              simp [drop_bytes, hn0, hdel, hm0, hnm, hdel2, h1, hsub, hcur]
          · have h1 : ¬ f.data_len - n ≤ m := by omega
            simp only [drop_bytes, hn0, hdel, hm0, hnm, hdel2, h1, if_false]
            congr 1
            · congr 1
              · simp only [rw_buff_frag.mk.injEq, true_and]
                omega
            · split_ifs <;> omega

/-- C2: for every well-formed queue state and every requested count, Dequeue
with a transfer primitive that copies everything returns (within one loop
iteration per fragment) the minimum of the requested count and the total
number of live bytes; the live byte stream left in the queue is the previous
stream without its first `read_cnt` bytes; and the list left is a tail of the
old list, whose first node may have been trimmed in place (same buffer,
`data_ptr` advanced and `data_len` reduced by the same amount). -/
theorem rwdev_read_drops_front (s : State) (buf : List Nat) (count fuel : Nat)
    (hwf : ∀ f ∈ s.buff_head, f.data_ptr + f.data_len ≤ f.data.length)
    (hfuel : s.buff_head.length ≤ fuel) :
    ∃ r, rwdev_read fuel xfer_all s buf count = some r ∧
      (stream s.buff_head).length = total_len s.buff_head ∧
      r.read_cnt = min count (total_len s.buff_head) ∧
      stream r.st.buff_head = (stream s.buff_head).drop r.read_cnt ∧
      ∃ k, r.st.buff_head = s.buff_head.drop k ∨
        ∃ f rest j, s.buff_head.drop k = f :: rest ∧ 0 < j ∧ j < f.data_len ∧
          r.st.buff_head
            = { f with data_len := f.data_len - j, data_ptr := f.data_ptr + j } :: rest := by
  obtain ⟨r, hr, hst, hcnt⟩ := rwdev_read_all s buf count fuel hfuel
  refine ⟨r, hr, stream_length _ hwf, hcnt, ?_, ?_⟩
  · rw [hst, hcnt]
    exact drop_bytes_stream _ _ _ _ hwf
  · rw [hst]
    exact drop_bytes_shape _ _ _ _

/-- C3: splitting is transparent.  From any state whose queue holds at least
`n + m` live bytes, with a transfer primitive that copies everything,
Dequeue(n) followed by Dequeue(m) and a single Dequeue(n + m) all return,
the two counts sum to `n + m`, which is also the count of the single call,
and both ways end in the same state: same list of fragments, same
`curr_elem`, same `curr_offset`. -/
theorem rwdev_read_split (s : State) (buf buf2 : List Nat) (n m fuel : Nat)
    (hlen : n + m ≤ total_len s.buff_head) (hfuel : s.buff_head.length ≤ fuel) :
    ∃ r1 r2 r12,
      rwdev_read fuel xfer_all s buf n = some r1 ∧
      rwdev_read fuel xfer_all r1.st buf2 m = some r2 ∧
      rwdev_read fuel xfer_all s buf (n + m) = some r12 ∧
      r1.read_cnt + r2.read_cnt = n + m ∧ r12.read_cnt = n + m ∧
      r2.st = r12.st := by
  obtain ⟨r1, hr1, hst1, hcnt1⟩ := rwdev_read_all s buf n fuel hfuel
  have hlen1 : r1.st.buff_head.length ≤ s.buff_head.length := by
    rw [hst1]
    obtain ⟨k, hk | ⟨f, rest, j, hd, _, _, hk⟩⟩ :=
      drop_bytes_shape s.buff_head s.curr_elem s.curr_offset n
    · rw [hk, List.length_drop]; omega
    · have := congrArg List.length hd
      rw [hk]
      simp only [List.length_cons, List.length_drop] at this ⊢
      omega
  obtain ⟨r2, hr2, hst2, hcnt2⟩ := rwdev_read_all r1.st buf2 m fuel (by omega)
  obtain ⟨r12, hr12, hst12, hcnt12⟩ := rwdev_read_all s buf (n + m) fuel hfuel
  have htot : total_len r1.st.buff_head = total_len s.buff_head - n := by
    rw [hst1]
    exact drop_bytes_total _ _ _ _ (by omega)
  refine ⟨r1, r2, r12, hr1, hr2, hr12, ?_, ?_, ?_⟩
  · rw [hcnt1, hcnt2, htot]; omega
  · rw [hcnt12]; omega
  · rw [hst2, hst12, hst1]
    exact drop_bytes_split _ _ _ _ _

/-- Witness for C2: two fragments "ab" and "cd", three bytes requested. -/
theorem rwdev_read_drops_front_witness :
    ∃ r, rwdev_read 2 xfer_all
          { buff_head := [{ addr := 1, data_len := 2, data := [97, 98], data_ptr := 0 },
                          { addr := 2, data_len := 2, data := [99, 100], data_ptr := 0 }],
            curr_elem := none, curr_offset := 0 } [0, 0, 0, 0] 3 = some r ∧
      r.read_cnt = 3 ∧ stream r.st.buff_head = [100] := by
  obtain ⟨r, hr, -, hcnt, hstream, -⟩ := rwdev_read_drops_front
    { buff_head := [{ addr := 1, data_len := 2, data := [97, 98], data_ptr := 0 },
                    { addr := 2, data_len := 2, data := [99, 100], data_ptr := 0 }],
      curr_elem := none, curr_offset := 0 } [0, 0, 0, 0] 3 2 (by decide) (by decide)
  have h3 : r.read_cnt = 3 := by rw [hcnt]; decide
  refine ⟨r, hr, h3, ?_⟩
  rw [hstream, h3]
  decide

/-- Witness for C3: "abcdef" queued with the cursor on it at offset 4,
Dequeue(1) then Dequeue(2) against Dequeue(3). -/
theorem rwdev_read_split_witness :
    ∃ r1 r2 r12,
      rwdev_read 1 xfer_all
        { buff_head := [{ addr := 1, data_len := 6, data := ascii "abcdef", data_ptr := 0 }],
          curr_elem := some 1, curr_offset := 4 } [0, 0, 0] 1 = some r1 ∧
      rwdev_read 1 xfer_all r1.st [0, 0, 0] 2 = some r2 ∧
      rwdev_read 1 xfer_all
        { buff_head := [{ addr := 1, data_len := 6, data := ascii "abcdef", data_ptr := 0 }],
          curr_elem := some 1, curr_offset := 4 } [0, 0, 0] (1 + 2) = some r12 ∧
      r1.read_cnt + r2.read_cnt = 1 + 2 ∧ r12.read_cnt = 1 + 2 ∧ r2.st = r12.st :=
  rwdev_read_split
    { buff_head := [{ addr := 1, data_len := 6, data := ascii "abcdef", data_ptr := 0 }],
      curr_elem := some 1, curr_offset := 4 } [0, 0, 0] [0, 0, 0] 1 2 1 (by decide) (by decide)

/-! ## Dequeue: delivery, partial transfers, empty queue -/

/-- C1 (evaluation at the failing input): after Enqueue("ab") and
Enqueue("cd"), Dequeue(4) with a transfer primitive that copies everything
returns 4, but the destination buffer holds "cd" in its first two bytes and
its old contents in the other two: every fragment is copied to the start of
`buf`, so the delivered bytes are not the concatenation "abcd". -/
theorem rwdev_read_overwrites_buf_start :
    rwdev_read 2 xfer_all
        (rwdev_write (rwdev_write rwdev_init 1 (ascii "ab") 0).1 2 (ascii "cd") 0).1
        [0, 0, 0, 0] 4
      = some { st := { buff_head := [], curr_elem := none, curr_offset := 0 },
               buf := [99, 100, 0, 0], read_cnt := 4, calls := 2 } ∧
    ascii "ab" ++ ascii "cd" = [97, 98, 99, 100] := by
  constructor <;> rfl

/-- C5 (evaluation at the failing input): with one fragment "abc" queued and
a transfer primitive whose first call leaves 2 of the 3 requested bytes
uncopied, Dequeue(3) does not stop after that partial transfer: it calls
`copy_to_user` a second time on the same fragment and returns 3, not 1. -/
theorem rwdev_read_retries_after_partial_transfer :
    rwdev_read 2 (fun k _ => if k = 0 then 2 else 0)
        (rwdev_write rwdev_init 1 (ascii "abc") 0).1 [0, 0, 0] 3
      = some { st := { buff_head := [], curr_elem := none, curr_offset := 0 },
               buf := [98, 99, 0], read_cnt := 3, calls := 2 } := by
  rfl

/-- C6: for every requested count, every transfer primitive and every
iteration bound, Dequeue on an empty queue returns 0, makes no
`copy_to_user` call, and leaves the list, `curr_elem`, `curr_offset` and the
destination buffer unchanged. -/
theorem rwdev_read_empty_queue (fuel : Nat) (xfer : Nat → Nat → Nat)
    (curr_elem : Option Nat) (curr_offset : Nat) (buf : List Nat) (count : Nat) :
    rwdev_read fuel xfer
        { buff_head := [], curr_elem := curr_elem, curr_offset := curr_offset } buf count
      = some { st := { buff_head := [], curr_elem := curr_elem, curr_offset := curr_offset },
               buf := buf, read_cnt := 0, calls := 0 } := by
  cases fuel <;> rfl

/-! ## Enqueue -/

/-- C4: Enqueue is all-or-nothing.  If `copy_from_user` reports a shortfall
the call returns 0 and the state is unchanged; if it reports a complete
copy the call returns the payload length and the list is the old list with
one new node appended at the newest end, whose live bytes are exactly the
payload. -/
theorem rwdev_write_all_or_nothing (s : State) (p : Nat) (payload : List Nat)
    (n_copied : Nat) :
    (n_copied ≠ 0 → rwdev_write s p payload n_copied = (s, 0)) ∧
    (n_copied = 0 →
      ∃ f : rw_buff_frag,
        rwdev_write s p payload n_copied
          = ({ s with buff_head := s.buff_head ++ [f] }, payload.length) ∧
        f.addr = p ∧ f.data_ptr = 0 ∧ f.data_len = payload.length ∧ live f = payload) := by
  constructor
  · intro h
    simp [rwdev_write, h]
  · intro h
    refine ⟨{ addr := p, data_len := payload.length, data := payload, data_ptr := 0 }, ?_⟩
    simp [rwdev_write, h, live]

/-- Witness for C4: a failed and a complete transfer of the payload "h". -/
theorem rwdev_write_all_or_nothing_witness :
    rwdev_write rwdev_init 1 [104] 3 = (rwdev_init, 0) ∧
    ∃ f : rw_buff_frag,
      rwdev_write rwdev_init 1 [104] 0
        = ({ rwdev_init with buff_head := rwdev_init.buff_head ++ [f] }, [104].length) ∧
      f.addr = 1 ∧ f.data_ptr = 0 ∧ f.data_len = [104].length ∧ live f = [104] :=
  ⟨(rwdev_write_all_or_nothing rwdev_init 1 [104] 3).1 (by decide),
   (rwdev_write_all_or_nothing rwdev_init 1 [104] 0).2 rfl⟩

/-! ## Next: the scanning helpers -/

theorem seek_first_char_loop_spec (rd : Nat → Nat) :
    ∀ (n c : Nat),
      (seek_first_char_loop rd n c = -1 ∧
        ∀ i, c ≤ i → i < c + n → is_word_separator (rd i) = true) ∨
      (∃ k : Nat, seek_first_char_loop rd n c = (k : Int) ∧ c ≤ k ∧ k < c + n ∧
        is_word_separator (rd k) = false ∧
        ∀ i, c ≤ i → i < k → is_word_separator (rd i) = true) := by
  intro n
  induction n with
  | zero =>
    intro c
    left
    exact ⟨rfl, fun i h1 h2 => by omega⟩
  | succ n ih =>
    intro c
    by_cases hsep : is_word_separator (rd c) = true
    · rcases ih (c + 1) with ⟨h1, h2⟩ | ⟨k, h1, h2, h3, h4, h5⟩
      · left
        refine ⟨by simp [seek_first_char_loop, hsep, h1], fun i hi1 hi2 => ?_⟩
        by_cases hic : i = c
        · rw [hic]; exact hsep
        · exact h2 i (by omega) (by omega)
      · right
        refine ⟨k, by simp [seek_first_char_loop, hsep, h1], by omega, by omega, h4,
          fun i hi1 hi2 => ?_⟩
        by_cases hic : i = c
        · rw [hic]; exact hsep
        · exact h5 i (by omega) hi2
    · right
      have hsep2 : is_word_separator (rd c) = false := by simpa using hsep
      exact ⟨c, by simp [seek_first_char_loop, hsep2], le_refl _, by omega, hsep2,
        fun i hi1 hi2 => by omega⟩

theorem seek_separator_loop_spec (rd : Nat → Nat) :
    ∀ (n c : Nat),
      (seek_separator_loop rd n c = -1 ∧
        ∀ i, c ≤ i → i < c + n → is_word_separator (rd i) = false) ∨
      (∃ k : Nat, seek_separator_loop rd n c = (k : Int) ∧ c ≤ k ∧ k < c + n ∧
        is_word_separator (rd k) = true ∧
        ∀ i, c ≤ i → i < k → is_word_separator (rd i) = false) := by
  intro n
  induction n with
  | zero =>
    intro c
    left
    exact ⟨rfl, fun i h1 h2 => by omega⟩
  | succ n ih =>
    intro c
    by_cases hsep : is_word_separator (rd c) = true
    · right
      exact ⟨c, by simp [seek_separator_loop, hsep], le_refl _, by omega, hsep,
        fun i hi1 hi2 => by omega⟩
    · have hsep2 : is_word_separator (rd c) = false := by simpa using hsep
      rcases ih (c + 1) with ⟨h1, h2⟩ | ⟨k, h1, h2, h3, h4, h5⟩
      · left
        refine ⟨by simp [seek_separator_loop, hsep2, h1], fun i hi1 hi2 => ?_⟩
        by_cases hic : i = c
        · rw [hic]; exact hsep2
        · exact h2 i (by omega) (by omega)
      · right
        refine ⟨k, by simp [seek_separator_loop, hsep2, h1], by omega, by omega, h4,
          fun i hi1 hi2 => ?_⟩
        by_cases hic : i = c
        · rw [hic]; exact hsep2
        · exact h5 i (by omega) hi2

/-- Result of `seek_first_char`: -1 when `[offset, len)` holds separators
only, otherwise the offset of its first non-separator byte. -/
theorem seek_first_char_spec (rd : Nat → Nat) (offset len : Nat) :
    (seek_first_char rd offset len = -1 ∧
      ∀ i, offset ≤ i → i < len → is_word_separator (rd i) = true) ∨
    (∃ k : Nat, seek_first_char rd offset len = (k : Int) ∧ offset ≤ k ∧ k < len ∧
      is_word_separator (rd k) = false ∧
      ∀ i, offset ≤ i → i < k → is_word_separator (rd i) = true) := by
  rcases seek_first_char_loop_spec rd (len - offset) offset with
    ⟨h1, h2⟩ | ⟨k, h1, h2, h3, h4, h5⟩
  · exact Or.inl ⟨h1, fun i hi1 hi2 => h2 i hi1 (by omega)⟩
  · exact Or.inr ⟨k, h1, h2, by omega, h4, h5⟩

/-- Result of `seek_separator`: -1 when `[offset, len)` holds no separator,
otherwise the offset of its first separator byte. -/
theorem seek_separator_spec (rd : Nat → Nat) (offset len : Nat) :
    (seek_separator rd offset len = -1 ∧
      ∀ i, offset ≤ i → i < len → is_word_separator (rd i) = false) ∨
    (∃ k : Nat, seek_separator rd offset len = (k : Int) ∧ offset ≤ k ∧ k < len ∧
      is_word_separator (rd k) = true ∧
      ∀ i, offset ≤ i → i < k → is_word_separator (rd i) = false) := by
  rcases seek_separator_loop_spec rd (len - offset) offset with
    ⟨h1, h2⟩ | ⟨k, h1, h2, h3, h4, h5⟩
  · exact Or.inl ⟨h1, fun i hi1 hi2 => h2 i hi1 (by omega)⟩
  · exact Or.inr ⟨k, h1, h2, by omega, h4, h5⟩

/-- One iteration of the loop of `buff_get_word` on the fragment `f`
scanned from `off`: either `f` holds a complete token, which ends the loop,
or it holds none and the loop goes on with the next newer node at offset 0. -/
theorem word_loop_cons (q : List rw_buff_frag) (f : rw_buff_frag) (rest : List rw_buff_frag)
    (off : Nat) :
    (has_word f off ∧ ∃ start e nxt, token_at f off start e nxt ∧
      word_loop q (f :: rest) off
        = { st := { buff_head := q, curr_elem := some f.addr, curr_offset := nxt },
            len := nxt - off, mem := memcpy_frag f start (nxt - off) }) ∨
    (¬ has_word f off ∧ word_loop q (f :: rest) off = word_loop q rest 0) := by
  rcases seek_first_char_spec (frag_byte f) off f.data_len with
    ⟨hs, hsall⟩ | ⟨start, hs, hs1, hs2, hs3, hs4⟩
  · right
    refine ⟨?_, by simp [word_loop, hs]⟩
    rintro ⟨i, j, hi, hij, hj, hni, -⟩
    have := hsall i hi (by omega)
    rw [this] at hni
    exact Bool.noConfusion hni
  · rcases seek_separator_spec (frag_byte f) start f.data_len with
      ⟨he, heall⟩ | ⟨e, he, he1, he2, he3, he4⟩
    · right
      refine ⟨?_, ?_⟩
      · rintro ⟨i, j, hi, hij, hj, hni, hsj⟩
        have hsi : start ≤ i := by
          by_contra hlt
          have := hs4 i hi (by omega)
          rw [this] at hni
          exact Bool.noConfusion hni
        have := heall j (by omega) hj
        rw [this] at hsj
        exact Bool.noConfusion hsj
      · have hn : ¬ ((start : Int) < 0) := by omega
        simp [word_loop, hs, hn, he]
    · left
      have hse : start < e := by
        rcases Nat.lt_or_ge start e with h | h
        · exact h
        · have : e = start := by omega
          rw [this, hs3] at he3
          exact Bool.noConfusion he3
      refine ⟨⟨start, e, hs1, hse, he2, hs3, he3⟩, ?_⟩
      have hn1 : ¬ ((start : Int) < 0) := by omega
      have hn2 : ¬ ((e : Int) < 0) := by omega
      rcases seek_first_char_spec (frag_byte f) e f.data_len with
        ⟨hx, hxall⟩ | ⟨nxt, hx, hx1, hx2, hx3, hx4⟩
      · refine ⟨start, e, f.data_len, ⟨hs1, hse, he2, le_refl _, hs4, he4, hxall,
          fun h => absurd h (lt_irrefl _)⟩, ?_⟩
        have hoff : off + (f.data_len - off) = f.data_len := by omega
        simp [word_loop, hs, hn1, he, hn2, hx, hoff]
      · have hex : e < nxt := by
          rcases Nat.lt_or_ge e nxt with h | h
          · exact h
          · have : nxt = e := by omega
            rw [this, he3] at hx3
            exact Bool.noConfusion hx3
        refine ⟨start, e, nxt, ⟨hs1, hse, hex, by omega, hs4, he4, hx4, fun _ => hx3⟩, ?_⟩
        have hpos : (0 : Int) < (nxt : Int) := by omega
        have hcast : ((nxt : Int) - (off : Int)).toNat = nxt - off := by omega
        have hoff : off + (nxt - off) = nxt := by omega
        simp [word_loop, hs, hn1, he, hn2, hx, hpos, hcast, hoff]

theorem word_loop_buff_head (q : List rw_buff_frag) :
    ∀ (l : List rw_buff_frag) (off : Nat), (word_loop q l off).st.buff_head = q := by
  intro l
  induction l with
  | nil => intro off; rfl
  | cons f rest ih =>
    intro off
    rcases word_loop_cons q f rest off with ⟨-, start, e, nxt, -, h⟩ | ⟨-, h⟩
    · rw [h]
    · rw [h]; exact ih 0

theorem word_loop_curr_elem (q : List rw_buff_frag) :
    ∀ (l : List rw_buff_frag) (off : Nat) (a : Nat),
      (word_loop q l off).st.curr_elem = some a → ∃ f ∈ l, f.addr = a := by
  intro l
  induction l with
  | nil => intro off a h; simp [word_loop] at h
  | cons f rest ih =>
    intro off a ha
    rcases word_loop_cons q f rest off with ⟨-, start, e, nxt, -, h⟩ | ⟨-, h⟩
    · rw [h] at ha
      simp only [Option.some.injEq] at ha
      exact ⟨f, List.mem_cons_self _ _, ha⟩
    · rw [h] at ha
      obtain ⟨g, hg, hga⟩ := ih 0 a ha
      exact ⟨g, List.mem_cons_of_mem _ hg, hga⟩

/-- When the loop of `buff_get_word` returns a non-zero length, it stopped
on a fragment of its range holding a complete token. -/
theorem word_loop_token (q : List rw_buff_frag) :
    ∀ (l : List rw_buff_frag) (off : Nat), (word_loop q l off).len ≠ 0 →
      ∃ f ∈ l, ∃ o start e nxt,
        ((∃ rest, l = f :: rest) ∧ o = off ∨ o = 0) ∧ token_at f o start e nxt ∧
        word_loop q l off
          = { st := { buff_head := q, curr_elem := some f.addr, curr_offset := nxt },
              len := nxt - o, mem := memcpy_frag f start (nxt - o) } := by
  intro l
  induction l with
  | nil => intro off h; simp [word_loop] at h
  | cons f rest ih =>
    intro off hlen
    rcases word_loop_cons q f rest off with ⟨-, start, e, nxt, htok, h⟩ | ⟨-, h⟩
    · exact ⟨f, List.mem_cons_self _ _, off, start, e, nxt, Or.inl ⟨⟨rest, rfl⟩, rfl⟩, htok, h⟩
    · rw [h] at hlen
      obtain ⟨g, hg, o, start, e, nxt, ho, htok, hw⟩ := ih 0 hlen
      refine ⟨g, List.mem_cons_of_mem _ hg, o, start, e, nxt, Or.inr ?_, htok, h.trans hw⟩
      rcases ho with ⟨-, ho⟩ | ho <;> exact ho

/-- The loop of `buff_get_word` returns 0 exactly when no fragment of its
range holds a complete token. -/
theorem word_loop_len_eq_zero_iff (q : List rw_buff_frag) :
    ∀ (l : List rw_buff_frag) (off : Nat),
      (word_loop q l off).len = 0 ↔ ∀ p ∈ scan_list l off, ¬ has_word p.1 p.2 := by
  intro l
  induction l with
  | nil => intro off; simp [word_loop, scan_list]
  | cons f rest ih =>
    intro off
    have hrest : (∀ p ∈ scan_list rest 0, ¬ has_word p.1 p.2)
        ↔ ∀ g ∈ rest, ¬ has_word g 0 := by
      cases rest with
      | nil => simp [scan_list]
      | cons g t => simp [scan_list]
    rcases word_loop_cons q f rest off with ⟨hw, start, e, nxt, htok, h⟩ | ⟨hw, h⟩
    · obtain ⟨h1, h2, h3, -⟩ := htok
      rw [h]
      constructor
      · intro h0
        simp only at h0
        omega
      · intro hall
        exact absurd hw (hall (f, off) (by simp [scan_list]))
    · rw [h, ih 0, hrest]
      simp only [scan_list, List.mem_cons, List.mem_map]
      constructor
      · rintro hall p (rfl | ⟨g, hg, rfl⟩)
        · exact hw
        · exact hall g hg
      · intro hall g hg
        exact hall (g, 0) (Or.inr ⟨g, hg, rfl⟩)

theorem nodes_from_some :
    ∀ (q : List rw_buff_frag) (a : Nat) (l : List rw_buff_frag), nodes_from q a = some l →
      ∃ f rest, l = f :: rest ∧ f.addr = a ∧ ∀ g ∈ l, g ∈ q := by
  intro q
  induction q with
  | nil => intro a l h; simp [nodes_from] at h
  | cons f rest ih =>
    intro a l h
    by_cases hfa : f.addr = a
    · simp only [nodes_from, hfa, if_true, Option.some.injEq] at h
      exact ⟨f, rest, h.symm, hfa, fun g hg => h ▸ hg⟩
    · simp only [nodes_from, hfa, if_false] at h
      obtain ⟨f2, rest2, h1, h2, h3⟩ := ih a l h
      exact ⟨f2, rest2, h1, h2, fun g hg => List.mem_cons_of_mem _ (h3 g hg)⟩

theorem nodes_from_of_mem :
    ∀ (q : List rw_buff_frag) (a : Nat), (∃ f ∈ q, f.addr = a) → ∃ l, nodes_from q a = some l := by
  intro q
  induction q with
  | nil => rintro a ⟨f, hf, -⟩; simp at hf
  | cons f rest ih =>
    rintro a ⟨g, hg, hga⟩
    by_cases hfa : f.addr = a
    · exact ⟨f :: rest, by simp [nodes_from, hfa]⟩
    · rcases List.mem_cons.mp hg with rfl | hg2
      · exact absurd hga hfa
      · obtain ⟨l, hl⟩ := ih a ⟨g, hg2, hga⟩
        exact ⟨l, by simp [nodes_from, hfa, hl]⟩

/-- Next returns whenever `curr_elem` is `&buff_head` or a linked node. -/
theorem buff_get_word_returns (s : State) (h : cursor_ok s) : ∃ r, buff_get_word s = some r := by
  unfold buff_get_word
  cases hc : s.curr_elem with
  | none =>
    cases hq : s.buff_head with
    | nil => exact ⟨_, rfl⟩
    | cons f rest => exact ⟨_, rfl⟩
  | some a =>
    obtain ⟨l, hl⟩ := nodes_from_of_mem s.buff_head a (h a hc)
    simp only [hl]
    exact ⟨_, rfl⟩

/-- Whatever Next returns, it is the result of the scanning loop run on the
scan range of the state, or the immediate 0 of the empty list. -/
theorem buff_get_word_cases (s : State) (r : WordOut) (hr : buff_get_word s = some r) :
    (s.curr_elem = none ∧ s.buff_head = [] ∧ r = { st := s, len := 0, mem := TokenBuf.unset } ∧
      scan_range s = []) ∨
    (∃ f rest off, r = word_loop s.buff_head (f :: rest) off ∧
      scan_range s = scan_list (f :: rest) off ∧ (∀ g ∈ f :: rest, g ∈ s.buff_head) ∧
      (s.curr_elem = some f.addr ∧ off = s.curr_offset ∨ s.curr_elem = none ∧ off = 0)) := by
  unfold buff_get_word at hr
  cases hc : s.curr_elem with
  | none =>
    rw [hc] at hr
    cases hq : s.buff_head with
    | nil =>
      rw [hq] at hr
      simp only [Option.some.injEq] at hr
      exact Or.inl ⟨rfl, rfl, hr.symm, by simp [scan_range, hc, hq, scan_list]⟩
    | cons f rest =>
      rw [hq] at hr
      simp only [Option.some.injEq] at hr
      exact Or.inr ⟨f, rest, 0, hr.symm, by simp [scan_range, hc, hq],
        fun g hg => hg, Or.inr ⟨rfl, rfl⟩⟩
  | some a =>
    rw [hc] at hr
    cases hn : nodes_from s.buff_head a with
    | none => simp [hn] at hr
    | some l =>
      simp only [hn, Option.some.injEq] at hr
      obtain ⟨f, rest, hl, hfa, hmem⟩ := nodes_from_some _ _ _ hn
      subst hl
      exact Or.inr ⟨f, rest, s.curr_offset, hr.symm, by simp [scan_range, hc, hn], hmem,
        Or.inl ⟨by rw [hfa], rfl⟩⟩

theorem slice_append (f : rw_buff_frag) (a b c : Nat) (h1 : a ≤ b) (h2 : b ≤ c) :
    slice f a c = slice f a b ++ slice f b c := by
  unfold slice
  have hb : (live f).drop b = ((live f).drop a).drop (b - a) := by
    rw [List.drop_drop]; congr 1; omega
  have hc : c - a = (b - a) + (c - b) := by omega
  rw [hb, hc, List.take_add]

theorem slice_length (f : rw_buff_frag) (a b : Nat)
    (hwf : f.data_ptr + f.data_len ≤ f.data.length) (hb : b ≤ f.data_len) :
    (slice f a b).length = b - a := by
  simp only [slice, live, List.length_take, List.length_drop]
  omega

theorem slice_mem (f : rw_buff_frag) (a b x : Nat)
    (hwf : f.data_ptr + f.data_len ≤ f.data.length) (hx : x ∈ slice f a b) :
    ∃ i, a ≤ i ∧ i < b ∧ i < f.data_len ∧ x = frag_byte f i := by
  obtain ⟨k, hk, hxk⟩ := List.mem_iff_getElem.mp hx
  simp only [slice, live, List.length_take, List.length_drop] at hk
  refine ⟨a + k, by omega, by omega, by omega, ?_⟩
  rw [← hxk]
  simp only [slice, live, List.getElem_take, List.getElem_drop, frag_byte]
  rw [List.getD_eq_getElem?_getD, List.getElem?_eq_getElem (by omega)]
  simp [Nat.add_assoc]

theorem memcpy_frag_slice (f : rw_buff_frag) (start len : Nat)
    (hwf : f.data_ptr + f.data_len ≤ f.data.length) (h : start + len ≤ f.data_len) :
    memcpy_frag f start len = TokenBuf.copied (slice f start (start + len)) := by
  have hle : f.data_ptr + start + len ≤ f.data.length := by omega
  simp only [memcpy_frag, hle, if_true, slice, live]
  rw [List.drop_take, List.drop_drop, List.take_take]
  congr 2
  omega

/-! ## Next: tokens, wrap-around, emptiness, frame -/

/-- C7 (counterexample): after Enqueue("hello world ") the first Next scans
from offset 0, where the first non-separator byte is at 0 and the first
separator after it at 5; yet the returned length is 6, not 5 - 0, and the
returned token is "hello " whose last byte is a separator. -/
theorem buff_get_word_token_keeps_separator :
    buff_get_word (rwdev_write rwdev_init 1 (ascii "hello world ") 0).1
      = some { st := { buff_head :=
                         [{ addr := 1, data_len := 12, data := ascii "hello world ",
                            data_ptr := 0 }],
                       curr_elem := some 1, curr_offset := 6 },
               len := 6, mem := TokenBuf.copied (ascii "hello ") } ∧
    seek_first_char
      (frag_byte { addr := 1, data_len := 12, data := ascii "hello world ", data_ptr := 0 })
      0 12 = 0 ∧
    seek_separator
      (frag_byte { addr := 1, data_len := 12, data := ascii "hello world ", data_ptr := 0 })
      0 12 = 5 ∧
    (6 : Nat) ≠ 5 - 0 ∧
    (ascii "hello ").getLast? = some 32 ∧ is_word_separator 32 = true := by
  refine ⟨rfl, rfl, rfl, by decide, rfl, rfl⟩

/-- C8 (counterexample): after Enqueue("hello world ") the first Next does
not return "hello" (it returns "hello " with the separator), and the third
Next returns 0 and no token, not "hello". -/
theorem buff_get_word_third_call_no_token :
    ∃ r1 r2 r3,
      buff_get_word (rwdev_write rwdev_init 1 (ascii "hello world ") 0).1 = some r1 ∧
      buff_get_word r1.st = some r2 ∧ buff_get_word r2.st = some r3 ∧
      r1.mem ≠ TokenBuf.copied (ascii "hello") ∧
      r3.len = 0 ∧ r3.mem ≠ TokenBuf.copied (ascii "hello") := by
  refine ⟨_, _, _, rfl, rfl, rfl, by decide, rfl, by decide⟩

/-- C8 (as amended): after Enqueue("hello world ") four consecutive Next
calls return "hello " (length 6), "world " (length 6), then no token (0, with
`curr_elem` back at `&buff_head`), and then, wrapping to the oldest fragment,
"hello " again. -/
theorem buff_get_word_hello_world :
    ∃ r1 r2 r3 r4,
      buff_get_word (rwdev_write rwdev_init 1 (ascii "hello world ") 0).1 = some r1 ∧
      buff_get_word r1.st = some r2 ∧ buff_get_word r2.st = some r3 ∧
      buff_get_word r3.st = some r4 ∧
      (r1.len = 6 ∧ r1.mem = TokenBuf.copied (ascii "hello ")) ∧
      (r2.len = 6 ∧ r2.mem = TokenBuf.copied (ascii "world ")) ∧
      (r3.len = 0 ∧ r3.mem = TokenBuf.unset ∧ r3.st.curr_elem = none) ∧
      (r4.len = 6 ∧ r4.mem = TokenBuf.copied (ascii "hello ")) := by
  refine ⟨_, _, _, _, rfl, rfl, rfl, rfl, ⟨rfl, rfl⟩, ⟨rfl, rfl⟩, ⟨rfl, rfl, rfl⟩, ⟨rfl, rfl⟩⟩

/-! ## Reachable states keep the cursor on the list -/

/-- State after one iteration of the loop of `rwdev_read`, in terms of the
number of bytes confirmed as transferred. -/
theorem rwdev_read_body_st (xfer : Nat → Nat → Nat) (count : Nat) (f : rw_buff_frag)
    (rest : List rw_buff_frag) (r : ReadOut) :
    (rwdev_read_body xfer count f rest r).st
      = if f.data_len = confirmed_len xfer count f r then
          { buff_head := rest,
            curr_elem :=
              if r.st.curr_elem = some f.addr then (rest.head?).map rw_buff_frag.addr
              else r.st.curr_elem,
            curr_offset := if r.st.curr_elem = some f.addr then 0 else r.st.curr_offset }
        else
          { buff_head :=
              { f with data_len := f.data_len - confirmed_len xfer count f r,
                       data_ptr := f.data_ptr + confirmed_len xfer count f r } :: rest,
            curr_elem := r.st.curr_elem,
            curr_offset :=
              if r.st.curr_elem = some f.addr then
                (if r.st.curr_offset ≤ confirmed_len xfer count f r then 0
                 else r.st.curr_offset - confirmed_len xfer count f r)
              else r.st.curr_offset } := by
  by_cases h : f.data_len = confirmed_len xfer count f r
  · rw [if_pos h]
    unfold confirmed_len at h
    unfold rwdev_read_body
    simp only []
    rw [if_pos h]
  · rw [if_neg h]
    unfold confirmed_len at h ⊢
    unfold rwdev_read_body
    simp only []
    rw [if_neg h]

theorem rwdev_read_body_cursor_ok (xfer : Nat → Nat → Nat) (count : Nat) (f : rw_buff_frag)
    (rest : List rw_buff_frag) (r : ReadOut) (hq : r.st.buff_head = f :: rest)
    (hc : cursor_ok r.st) : cursor_ok (rwdev_read_body xfer count f rest r).st := by
  rw [rwdev_read_body_st]
  intro a ha
  by_cases hdel : f.data_len = confirmed_len xfer count f r
  · rw [if_pos hdel] at ha ⊢
    simp only at ha ⊢
    by_cases hcur : r.st.curr_elem = some f.addr
    · simp only [hcur, if_true] at ha
      cases rest with
      | nil => simp at ha
      | cons g t =>
        simp only [List.head?_cons, Option.map_some', Option.some.injEq] at ha
        exact ⟨g, List.mem_cons_self _ _, ha⟩
    · simp only [hcur, if_false] at ha
      obtain ⟨g, hg, hga⟩ := hc a ha
      rw [hq] at hg
      rcases List.mem_cons.mp hg with rfl | hg2
      · rw [ha, hga] at hcur
        exact absurd rfl hcur
      · exact ⟨g, hg2, hga⟩
  · rw [if_neg hdel] at ha ⊢
    simp only at ha ⊢
    obtain ⟨g, hg, hga⟩ := hc a ha
    rw [hq] at hg
    rcases List.mem_cons.mp hg with rfl | hg2
    · exact ⟨_, List.mem_cons_self _ _, hga⟩
    · exact ⟨g, List.mem_cons_of_mem _ hg2, hga⟩

theorem rwdev_read_loop_cursor_ok (xfer : Nat → Nat → Nat) (count : Nat) :
    ∀ (fuel : Nat) (r r2 : ReadOut), cursor_ok r.st →
      rwdev_read_loop xfer count fuel r = some r2 → cursor_ok r2.st := by
  intro fuel
  induction fuel with
  | zero =>
    intro r r2 hc h
    unfold rwdev_read_loop at h
    split at h
    · simp only [Option.some.injEq] at h
      rw [← h]; exact hc
    · split at h
      · simp at h
      · simp only [Option.some.injEq] at h
        rw [← h]; exact hc
  | succ fuel ih =>
    intro r r2 hc h
    unfold rwdev_read_loop at h
    split at h
    · simp only [Option.some.injEq] at h
      rw [← h]; exact hc
    · rename_i f rest hq
      split at h
      · exact ih _ r2 (rwdev_read_body_cursor_ok xfer count f rest r hq hc) h
      · simp only [Option.some.injEq] at h
        rw [← h]; exact hc

theorem buff_get_word_cursor_ok (s : State) (r : WordOut) (hc : cursor_ok s)
    (hr : buff_get_word s = some r) : cursor_ok r.st := by
  rcases buff_get_word_cases s r hr with ⟨-, -, h, -⟩ | ⟨f0, rest0, off, h, -, hmem, -⟩
  · rw [h]; exact hc
  · intro a ha
    rw [h] at ha ⊢
    obtain ⟨g, hg, hga⟩ := word_loop_curr_elem _ _ _ a ha
    rw [word_loop_buff_head]
    exact ⟨g, hmem g hg, hga⟩

/-- In every reachable state `curr_elem` is `&buff_head` or a linked node. -/
theorem reachable_cursor_ok (s : State) (h : Reachable s) : cursor_ok s := by
  induction h with
  | init => intro a ha; simp [rwdev_init] at ha
  | enqueue s p payload n_copied _ _ ih =>
    intro a ha
    unfold rwdev_write at ha ⊢
    by_cases hn : n_copied = 0
    · simp only [hn, ne_eq, not_true_eq_false, if_false] at ha ⊢
      obtain ⟨g, hg, hga⟩ := ih a ha
      exact ⟨g, List.mem_append_left _ hg, hga⟩
    · simp only [hn, ne_eq, not_false_eq_true, if_true] at ha ⊢
      exact ih a ha
  | dequeue s fuel xfer buf count r _ hr ih =>
    exact rwdev_read_loop_cursor_ok xfer count fuel _ r ih hr
  | next s r _ hr ih => exact buff_get_word_cursor_ok s r ih hr

/-- C9 (as amended): in every reachable state Next returns; if the queue is
empty it reports no token (returns 0) and changes nothing; and in general it
returns 0 exactly when no fragment of its scan range (the cursor's fragment
from the cursor offset and every newer fragment from offset 0; every fragment
when the cursor is at `&buff_head`) holds a complete token, which is also the
case for some non-empty queues. -/
theorem buff_get_word_no_token_iff (s : State) (h : Reachable s) :
    ∃ r, buff_get_word s = some r ∧
      (s.buff_head = [] → r.len = 0 ∧ r.mem = TokenBuf.unset ∧ r.st = s) ∧
      (r.len = 0 ↔ ∀ p ∈ scan_range s, ¬ has_word p.1 p.2) := by
  have hc := reachable_cursor_ok s h
  obtain ⟨r, hr⟩ := buff_get_word_returns s hc
  refine ⟨r, hr, ?_, ?_⟩
  · intro hq
    rcases buff_get_word_cases s r hr with ⟨-, -, h1, -⟩ | ⟨f0, rest0, off, -, -, hmem, -⟩
    · rw [h1]; exact ⟨rfl, rfl, rfl⟩
    · have := hmem f0 (List.mem_cons_self _ _)
      rw [hq] at this
      simp at this
  · rcases buff_get_word_cases s r hr with ⟨-, -, h1, h2⟩ | ⟨f0, rest0, off, h1, h2, -, -⟩
    · rw [h1, h2]; simp
    · rw [h1, h2]
      exact word_loop_len_eq_zero_iff _ _ _

/-- Witness for C9: the state after Enqueue("abc"). -/
theorem buff_get_word_no_token_iff_witness :
    ∃ r, buff_get_word (rwdev_write rwdev_init 1 (ascii "abc") 0).1 = some r ∧
      ((rwdev_write rwdev_init 1 (ascii "abc") 0).1.buff_head = [] →
        r.len = 0 ∧ r.mem = TokenBuf.unset ∧ r.st = (rwdev_write rwdev_init 1 (ascii "abc") 0).1) ∧
      (r.len = 0 ↔
        ∀ p ∈ scan_range (rwdev_write rwdev_init 1 (ascii "abc") 0).1, ¬ has_word p.1 p.2) :=
  buff_get_word_no_token_iff _
    (Reachable.enqueue rwdev_init 1 (ascii "abc") 0 Reachable.init
      (fun f hf => by simp [rwdev_init] at hf))

/-- C9 (counterexample): the state after Enqueue("abc") is reachable and its
queue is not empty, yet Next returns 0 (no token). -/
theorem buff_get_word_no_token_nonempty_queue :
    Reachable (rwdev_write rwdev_init 1 (ascii "abc") 0).1 ∧
    (rwdev_write rwdev_init 1 (ascii "abc") 0).1.buff_head ≠ [] ∧
    ∃ r, buff_get_word (rwdev_write rwdev_init 1 (ascii "abc") 0).1 = some r ∧ r.len = 0 := by
  refine ⟨Reachable.enqueue rwdev_init 1 (ascii "abc") 0 Reachable.init
      (fun f hf => by simp [rwdev_init] at hf), by decide, _, rfl, rfl⟩

/-- C10: Next is read-only on the queue.  In every state whose cursor is at
`&buff_head` or on a linked node, Next returns and the list of fragments
after the call (order, buffers, `data_ptr`, `data_len`) is the list before
the call; only `curr_elem` and `curr_offset` may differ. -/
theorem buff_get_word_frame (s : State) (h : cursor_ok s) :
    ∃ r, buff_get_word s = some r ∧ r.st.buff_head = s.buff_head := by
  obtain ⟨r, hr⟩ := buff_get_word_returns s h
  refine ⟨r, hr, ?_⟩
  rcases buff_get_word_cases s r hr with ⟨-, -, h1, -⟩ | ⟨f0, rest0, off, h1, -, -, -⟩
  · rw [h1]
  · rw [h1]; exact word_loop_buff_head _ _ _

/-- Witness for C10: "hello world " queued and the cursor on it at offset 6. -/
theorem buff_get_word_frame_witness :
    ∃ r, buff_get_word
          { buff_head := [{ addr := 1, data_len := 12, data := ascii "hello world ",
                            data_ptr := 0 }],
            curr_elem := some 1, curr_offset := 6 } = some r ∧
      r.st.buff_head
        = [{ addr := 1, data_len := 12, data := ascii "hello world ", data_ptr := 0 }] :=
  buff_get_word_frame
    { buff_head := [{ addr := 1, data_len := 12, data := ascii "hello world ", data_ptr := 0 }],
      curr_elem := some 1, curr_offset := 6 }
    (fun _ ha => ⟨_, List.mem_cons_self _ _, Option.some.inj ha⟩)

/-! ## Enqueue frame, cursor liveness and cursor repair -/

/-- C11: Enqueue leaves the scan state and the existing data untouched.  For
every state, node address, payload and transfer result (success or failure),
`curr_elem` and `curr_offset` are unchanged and the old list is the initial
part of the new list: every previously queued fragment keeps its buffer,
`data_ptr`, `data_len` and position. -/
theorem rwdev_write_frame (s : State) (p : Nat) (payload : List Nat) (n_copied : Nat) :
    (rwdev_write s p payload n_copied).1.curr_elem = s.curr_elem ∧
    (rwdev_write s p payload n_copied).1.curr_offset = s.curr_offset ∧
    (rwdev_write s p payload n_copied).1.buff_head.take s.buff_head.length = s.buff_head ∧
    ((rwdev_write s p payload n_copied).1.buff_head = s.buff_head ∨
      ∃ f, (rwdev_write s p payload n_copied).1.buff_head = s.buff_head ++ [f]) := by
  by_cases h : n_copied = 0
  · simp [rwdev_write, h]
  · simp [rwdev_write, h]

/-- C15: cursor liveness.  In every state reachable from the initial state by
any interleaving of Enqueue, Dequeue (with any transfer behaviour) and Next,
`curr_elem` is `&buff_head` or the address of a node currently linked in the
list, so Next never dereferences an unlinked (destroyed) node and returns. -/
theorem cursor_liveness (s : State) (h : Reachable s) :
    (s.curr_elem = none ∨ ∃ f ∈ s.buff_head, s.curr_elem = some f.addr) ∧
    ∃ r, buff_get_word s = some r := by
  have hc := reachable_cursor_ok s h
  refine ⟨?_, buff_get_word_returns s hc⟩
  cases hcur : s.curr_elem with
  | none => exact Or.inl rfl
  | some a =>
    obtain ⟨f, hf, hfa⟩ := hc a hcur
    exact Or.inr ⟨f, hf, by rw [hfa]⟩

/-- Witness for C15: the state after Enqueue("a "), Next and a Dequeue(1)
whose transfer is complete. -/
theorem cursor_liveness_witness :
    (((none : Option Nat) = none ∨
        ∃ f ∈ ([] : List rw_buff_frag), (none : Option Nat) = some f.addr)) ∧
      ∃ r, buff_get_word { buff_head := [], curr_elem := none, curr_offset := 0 } = some r :=
  cursor_liveness { buff_head := [], curr_elem := none, curr_offset := 0 }
    (Reachable.dequeue
      { buff_head := [{ addr := 1, data_len := 2, data := ascii "a ", data_ptr := 0 }],
        curr_elem := some 1, curr_offset := 2 }
      1 xfer_all [0, 0] 2
      { st := { buff_head := [], curr_elem := none, curr_offset := 0 },
        buf := ascii "a ", read_cnt := 2, calls := 1 }
      (Reachable.next (rwdev_write rwdev_init 1 (ascii "a ") 0).1
        { st := { buff_head := [{ addr := 1, data_len := 2, data := ascii "a ", data_ptr := 0 }],
                  curr_elem := some 1, curr_offset := 2 },
          len := 2, mem := TokenBuf.copied (ascii "a ") }
        (Reachable.enqueue rwdev_init 1 (ascii "a ") 0 Reachable.init
          (fun f hf => by simp [rwdev_init] at hf))
        rfl)
      rfl)

/-- C16: cursor repair in one iteration of the loop of Dequeue, which handles
the oldest node `f` with `k = confirmed_len` bytes confirmed as transferred.
If `f` is unlinked (`data_len = k`) and the cursor references it, the cursor
moves to the next newer node (`&buff_head` if there is none) with offset 0.
If `f` is only trimmed by `k` bytes and the cursor references it, the cursor
stays on it with offset `max(0, old offset - k)`.  A cursor referencing any
other node keeps its node and offset. -/
theorem rwdev_read_cursor_repair (xfer : Nat → Nat → Nat) (count : Nat) (f : rw_buff_frag)
    (rest : List rw_buff_frag) (r : ReadOut) :
    (f.data_len = confirmed_len xfer count f r →
      (rwdev_read_body xfer count f rest r).st.buff_head = rest ∧
      (r.st.curr_elem = some f.addr →
        (rwdev_read_body xfer count f rest r).st.curr_elem
          = (rest.head?).map rw_buff_frag.addr ∧
        (rwdev_read_body xfer count f rest r).st.curr_offset = 0)) ∧
    (f.data_len ≠ confirmed_len xfer count f r →
      (rwdev_read_body xfer count f rest r).st.buff_head
        = { f with data_len := f.data_len - confirmed_len xfer count f r,
                   data_ptr := f.data_ptr + confirmed_len xfer count f r } :: rest ∧
      (r.st.curr_elem = some f.addr →
        (rwdev_read_body xfer count f rest r).st.curr_elem = some f.addr ∧
        ((rwdev_read_body xfer count f rest r).st.curr_offset : Int)
          = max 0 ((r.st.curr_offset : Int) - (confirmed_len xfer count f r : Int)))) ∧
    (r.st.curr_elem ≠ some f.addr →
      (rwdev_read_body xfer count f rest r).st.curr_elem = r.st.curr_elem ∧
      (rwdev_read_body xfer count f rest r).st.curr_offset = r.st.curr_offset) := by
  rw [rwdev_read_body_st]
  refine ⟨fun hk => ?_, fun hk => ?_, fun hcur => ?_⟩
  · rw [if_pos hk]
    exact ⟨rfl, fun hcur => by simp [hcur]⟩
  · rw [if_neg hk]
    refine ⟨rfl, fun hcur => ⟨hcur, ?_⟩⟩
    simp only [hcur, if_true]
    split_ifs with hle
    · have : (r.st.curr_offset : Int) - (confirmed_len xfer count f r : Int) ≤ 0 := by omega
      simp [this]
    · have : (0 : Int) ≤ (r.st.curr_offset : Int) - (confirmed_len xfer count f r : Int) := by
        omega
      rw [max_eq_right this]
      omega
  · by_cases hk : f.data_len = confirmed_len xfer count f r
    · rw [if_pos hk]; simp [hcur]
    · rw [if_neg hk]; simp [hcur]

/-- Witness for C16: "abcdef" queued with the cursor at offset 4; one
iteration for Dequeue(6) unlinks the node under the cursor, one for
Dequeue(3) trims it by 3, and one for Dequeue(3) with the cursor on another
node leaves the cursor alone. -/
theorem rwdev_read_cursor_repair_witness :
    ((rwdev_read_body xfer_all 6
        { addr := 1, data_len := 6, data := ascii "abcdef", data_ptr := 0 } []
        { st := { buff_head := [], curr_elem := some 1, curr_offset := 4 },
          buf := [], read_cnt := 0, calls := 0 }).st.curr_elem
        = (([] : List rw_buff_frag).head?).map rw_buff_frag.addr ∧
      (rwdev_read_body xfer_all 6
        { addr := 1, data_len := 6, data := ascii "abcdef", data_ptr := 0 } []
        { st := { buff_head := [], curr_elem := some 1, curr_offset := 4 },
          buf := [], read_cnt := 0, calls := 0 }).st.curr_offset = 0) ∧
    ((rwdev_read_body xfer_all 3
        { addr := 1, data_len := 6, data := ascii "abcdef", data_ptr := 0 } []
        { st := { buff_head := [], curr_elem := some 1, curr_offset := 4 },
          buf := [], read_cnt := 0, calls := 0 }).st.curr_elem = some 1 ∧
      ((rwdev_read_body xfer_all 3
        { addr := 1, data_len := 6, data := ascii "abcdef", data_ptr := 0 } []
        { st := { buff_head := [], curr_elem := some 1, curr_offset := 4 },
          buf := [], read_cnt := 0, calls := 0 }).st.curr_offset : Int)
        = max 0 ((4 : Int) - (3 : Int))) ∧
    ((rwdev_read_body xfer_all 3
        { addr := 1, data_len := 6, data := ascii "abcdef", data_ptr := 0 } []
        { st := { buff_head := [], curr_elem := some 2, curr_offset := 4 },
          buf := [], read_cnt := 0, calls := 0 }).st.curr_elem = some 2 ∧
      (rwdev_read_body xfer_all 3
        { addr := 1, data_len := 6, data := ascii "abcdef", data_ptr := 0 } []
        { st := { buff_head := [], curr_elem := some 2, curr_offset := 4 },
          buf := [], read_cnt := 0, calls := 0 }).st.curr_offset = 4) :=
  ⟨((rwdev_read_cursor_repair xfer_all 6
        { addr := 1, data_len := 6, data := ascii "abcdef", data_ptr := 0 } []
        { st := { buff_head := [], curr_elem := some 1, curr_offset := 4 },
          buf := [], read_cnt := 0, calls := 0 }).1 (by decide)).2 rfl,
   ((rwdev_read_cursor_repair xfer_all 3
        { addr := 1, data_len := 6, data := ascii "abcdef", data_ptr := 0 } []
        { st := { buff_head := [], curr_elem := some 1, curr_offset := 4 },
          buf := [], read_cnt := 0, calls := 0 }).2.1 (by decide)).2 rfl,
   (rwdev_read_cursor_repair xfer_all 3
        { addr := 1, data_len := 6, data := ascii "abcdef", data_ptr := 0 } []
        { st := { buff_head := [], curr_elem := some 2, curr_offset := 4 },
          buf := [], read_cnt := 0, calls := 0 }).2.2 (by decide)⟩

/-! ## Defects: endless retry in Dequeue, copy overrun in Next -/

/-- C18 (evaluation at the failing input): with one fragment "abc" queued
and a transfer primitive that never copies anything, the loop of Dequeue(3)
is still running after any number of iterations: each iteration confirms 0
bytes, leaves the node, `read_cnt` and `elem` as they were, and the loop
condition holds again. -/
theorem rwdev_read_never_returns (fuel : Nat) :
    rwdev_read fuel (fun _ n => n)
        (rwdev_write rwdev_init 1 (ascii "abc") 0).1 [0, 0, 0] 3 = none := by
  have key : ∀ (fuel calls : Nat),
      rwdev_read_loop (fun _ n => n) 3 fuel
        { st := { buff_head := [{ addr := 1, data_len := 3, data := ascii "abc",
                                  data_ptr := 0 }],
                  curr_elem := none, curr_offset := 0 },
          buf := [0, 0, 0], read_cnt := 0, calls := calls } = none := by
    intro fuel
    induction fuel with
    | zero => intro calls; rfl
    | succ n ih => intro calls; exact ih (calls + 1)
  exact key fuel 0

/-- C20 (evaluation at the failing input): after Enqueue(" a ") the first
Next scans the 3-byte fragment from offset 0, finds the token start at
offset 1 and no further token, and sets `len = data_len - curr_offset = 3`;
`memcpy` then reads 3 bytes from offset 1, and 1 + 3 exceeds the fragment
length 3, so the copy leaves the fragment's buffer. -/
theorem buff_get_word_copy_overruns :
    buff_get_word (rwdev_write rwdev_init 1 (ascii " a ") 0).1
      = some { st := { buff_head := [{ addr := 1, data_len := 3, data := ascii " a ",
                                       data_ptr := 0 }],
                       curr_elem := some 1, curr_offset := 3 },
               len := 3, mem := TokenBuf.overrun } ∧
    seek_first_char
      (frag_byte { addr := 1, data_len := 3, data := ascii " a ", data_ptr := 0 }) 0 3 = 1 ∧
    memcpy_frag { addr := 1, data_len := 3, data := ascii " a ", data_ptr := 0 } 1 3
      = TokenBuf.overrun ∧
    ¬ (1 + 3 ≤ (3 : Nat)) := by
  refine ⟨rfl, rfl, rfl, by decide⟩

/-- C12 (evaluation at the failing input): the state after Enqueue(" a ") is
reachable and Next returns a token of length 3 there whose bytes are not a
sub-range of the live bytes of any queued fragment: the copy starts at
offset 1 of the only fragment, which has 3 live bytes, and runs past its end.
The scenario of the claim itself is as claimed: after Enqueue("a") and
Enqueue("b ") Next returns "b ", cut from the second fragment, not "ab". -/
theorem buff_get_word_token_leaves_fragment :
    Reachable (rwdev_write rwdev_init 1 (ascii " a ") 0).1 ∧
    (∃ r, buff_get_word (rwdev_write rwdev_init 1 (ascii " a ") 0).1 = some r ∧ r.len = 3 ∧
      r.mem = TokenBuf.overrun ∧
      ∀ f ∈ (rwdev_write rwdev_init 1 (ascii " a ") 0).1.buff_head, ∀ a b,
        r.mem ≠ TokenBuf.copied (slice f a b)) ∧
    (∃ r, buff_get_word
        (rwdev_write (rwdev_write rwdev_init 1 (ascii "a") 0).1 2 (ascii "b ") 0).1 = some r ∧
      r.len = 2 ∧ r.mem = TokenBuf.copied (ascii "b ") ∧ r.st.curr_elem = some 2) := by
  refine ⟨Reachable.enqueue rwdev_init 1 (ascii " a ") 0 Reachable.init
      (fun f hf => by simp [rwdev_init] at hf), ⟨_, rfl, rfl, rfl, ?_⟩, ⟨_, rfl, rfl, rfl, rfl⟩⟩
  intro f _ a b h
  exact TokenBuf.noConfusion h

/-! ## Invariants of reachable states: distinct addresses, cursor offset -/

/-- Whatever one iteration of the loop of `rwdev_read` preserves, the whole
loop preserves. -/
theorem rwdev_read_loop_invariant (P : State → Prop) (xfer : Nat → Nat → Nat) (count : Nat)
    (hbody : ∀ (f : rw_buff_frag) (rest : List rw_buff_frag) (r : ReadOut),
      r.st.buff_head = f :: rest → P r.st → P (rwdev_read_body xfer count f rest r).st) :
    ∀ (fuel : Nat) (r r2 : ReadOut), P r.st →
      rwdev_read_loop xfer count fuel r = some r2 → P r2.st := by
  intro fuel
  induction fuel with
  | zero =>
    intro r r2 hc h
    unfold rwdev_read_loop at h
    split at h
    · simp only [Option.some.injEq] at h
      rw [← h]; exact hc
    · split at h
      · simp at h
      · simp only [Option.some.injEq] at h
        rw [← h]; exact hc
  | succ fuel ih =>
    intro r r2 hc h
    unfold rwdev_read_loop at h
    split at h
    · simp only [Option.some.injEq] at h
      rw [← h]; exact hc
    · rename_i f rest hq
      split at h
      · exact ih _ r2 (hbody f rest r hq hc) h
      · simp only [Option.some.injEq] at h
        rw [← h]; exact hc

theorem confirmed_len_le (xfer : Nat → Nat → Nat) (count : Nat) (f : rw_buff_frag)
    (r : ReadOut) : confirmed_len xfer count f r ≤ f.data_len := by
  unfold confirmed_len
  simp only []
  split_ifs <;> omega

theorem rwdev_read_body_addrs_nodup (xfer : Nat → Nat → Nat) (count : Nat) (f : rw_buff_frag)
    (rest : List rw_buff_frag) (r : ReadOut) (hq : r.st.buff_head = f :: rest)
    (h : addrs_nodup r.st) : addrs_nodup (rwdev_read_body xfer count f rest r).st := by
  unfold addrs_nodup at h ⊢
  rw [hq] at h
  rw [rwdev_read_body_st]
  by_cases hdel : f.data_len = confirmed_len xfer count f r
  · rw [if_pos hdel]
    simp only [List.map_cons, List.nodup_cons] at h
    exact h.2
  · rw [if_neg hdel]
    exact h

theorem rwdev_read_body_offset_ok (xfer : Nat → Nat → Nat) (count : Nat) (f : rw_buff_frag)
    (rest : List rw_buff_frag) (r : ReadOut) (hq : r.st.buff_head = f :: rest)
    (h : offset_ok r.st) : offset_ok (rwdev_read_body xfer count f rest r).st := by
  have hk := confirmed_len_le xfer count f r
  have hf := h f (by rw [hq]; exact List.mem_cons_self _ _)
  have hrest : ∀ g ∈ rest, r.st.curr_elem = some g.addr → r.st.curr_offset ≤ g.data_len :=
    fun g hg => h g (by rw [hq]; exact List.mem_cons_of_mem _ hg)
  rw [rwdev_read_body_st]
  intro g hg hcur
  by_cases hdel : f.data_len = confirmed_len xfer count f r
  · rw [if_pos hdel] at hg hcur ⊢
    simp only at hg hcur ⊢
    by_cases hc : r.st.curr_elem = some f.addr
    · simp [hc]
    · simp only [hc, if_false] at hcur ⊢
      exact hrest g hg hcur
  · rw [if_neg hdel] at hg hcur ⊢
    simp only at hg hcur ⊢
    rcases List.mem_cons.mp hg with rfl | hg2
    · simp only at hcur ⊢
      have := hf hcur
      simp only [hcur, if_true]
      split_ifs <;> omega
    · have := hrest g hg2 hcur
      split_ifs <;> omega

theorem word_loop_len_zero_curr_elem (q : List rw_buff_frag) :
    ∀ (l : List rw_buff_frag) (off : Nat), (word_loop q l off).len = 0 →
      (word_loop q l off).st.curr_elem = none := by
  intro l
  induction l with
  | nil => intro off _; rfl
  | cons f rest ih =>
    intro off h0
    rcases word_loop_cons q f rest off with ⟨-, start, e, nxt, htok, h⟩ | ⟨-, h⟩
    · obtain ⟨h1, h2, h3, -⟩ := htok
      rw [h] at h0
      simp only at h0
      omega
    · rw [h] at h0 ⊢
      exact ih 0 h0

theorem addrs_nodup_inj (q : List rw_buff_frag) (h : (q.map rw_buff_frag.addr).Nodup)
    (f g : rw_buff_frag) (hf : f ∈ q) (hg : g ∈ q) (hfg : f.addr = g.addr) : f = g :=
  List.inj_on_of_nodup_map h hf hg hfg

theorem buff_get_word_offset_ok (s : State) (r : WordOut) (hn : addrs_nodup s)
    (ho : offset_ok s) (hr : buff_get_word s = some r) : offset_ok r.st := by
  rcases buff_get_word_cases s r hr with ⟨-, -, h, -⟩ | ⟨f0, rest0, off, h, -, hmem, -⟩
  · rw [h]; exact ho
  · by_cases hlen : (word_loop s.buff_head (f0 :: rest0) off).len = 0
    · intro g _ hcur
      rw [h, word_loop_len_zero_curr_elem _ _ _ hlen] at hcur
      exact Option.noConfusion hcur
    · obtain ⟨f, hf, o, start, e, nxt, -, htok, hw⟩ := word_loop_token _ _ _ hlen
      rw [h, hw]
      intro g hg hcur
      simp only at hg hcur ⊢
      simp only [Option.some.injEq] at hcur
      have hfg := addrs_nodup_inj s.buff_head hn f g (hmem f hf) hg hcur
      rw [← hfg]
      exact htok.2.2.2.1

/-- In every reachable state the linked nodes have pairwise different
addresses and the cursor offset is at most the length of the node the cursor
references. -/
theorem reachable_offset_ok (s : State) (h : Reachable s) : addrs_nodup s ∧ offset_ok s := by
  induction h with
  | init => exact ⟨by simp [addrs_nodup, rwdev_init], fun f hf => by simp [rwdev_init] at hf⟩
  | enqueue s p payload n_copied hs hfresh ih =>
    have hc := reachable_cursor_ok s hs
    unfold rwdev_write
    by_cases hn : n_copied = 0
    · simp only [hn, ne_eq, not_true_eq_false, if_false]
      constructor
      · unfold addrs_nodup
        simp only [List.map_append, List.map_cons, List.map_nil]
        rw [List.nodup_append]
        refine ⟨ih.1, by simp, ?_⟩
        intro a ha hb
        simp only [List.mem_singleton] at hb
        obtain ⟨g, hg, hga⟩ := List.mem_map.mp ha
        exact hfresh g hg (hga.trans hb)
      · intro g hg hcur
        simp only at hg hcur ⊢
        rcases List.mem_append.mp hg with hg1 | hg2
        · exact ih.2 g hg1 hcur
        · simp only [List.mem_singleton] at hg2
          obtain ⟨g2, hg2m, hg2a⟩ := hc _ hcur
          rw [hg2] at hg2a
          exact absurd hg2a (hfresh g2 hg2m)
    · simp only [hn, ne_eq, not_false_eq_true, if_true]
      exact ih
  | dequeue s fuel xfer buf count r _ hr ih =>
    exact rwdev_read_loop_invariant (fun t => addrs_nodup t ∧ offset_ok t) xfer count
      (fun f rest r0 hq hp =>
        ⟨rwdev_read_body_addrs_nodup xfer count f rest r0 hq hp.1,
         rwdev_read_body_offset_ok xfer count f rest r0 hq hp.2⟩)
      fuel _ r ih hr
  | next s r _ hr ih =>
    refine ⟨?_, buff_get_word_offset_ok s r ih.1 ih.2 hr⟩
    unfold addrs_nodup
    rcases buff_get_word_cases s r hr with ⟨-, -, h1, -⟩ | ⟨f0, rest0, off, h1, -, -, -⟩
    · rw [h1]; exact ih.1
    · rw [h1, word_loop_buff_head]; exact ih.1

/-- C17 (as amended): immediately after any Dequeue run in a reachable state,
if the cursor references a linked fragment then its offset lies in the closed
range `[0, data_len]` of that fragment; the upper end is attained. -/
theorem cursor_offset_le_data_len (s : State) (h : Reachable s) (fuel : Nat)
    (xfer : Nat → Nat → Nat) (buf : List Nat) (count : Nat) (r : ReadOut)
    (hr : rwdev_read fuel xfer s buf count = some r) :
    ∀ f ∈ r.st.buff_head, r.st.curr_elem = some f.addr →
      0 ≤ r.st.curr_offset ∧ r.st.curr_offset ≤ f.data_len := by
  intro f hf hcur
  exact ⟨Nat.zero_le _,
    (reachable_offset_ok r.st (Reachable.dequeue s fuel xfer buf count r h hr)).2 f hf hcur⟩

/-- C17 (counterexample): after Enqueue("a ") and Next the cursor is on the
fragment at offset 2; Dequeue(1) trims the fragment to length 1 and repairs
the cursor offset to 1, which is not below the fragment length. -/
theorem cursor_offset_reaches_data_len :
    Reachable { buff_head := [{ addr := 1, data_len := 2, data := ascii "a ", data_ptr := 0 }],
                curr_elem := some 1, curr_offset := 2 } ∧
    rwdev_read 1 xfer_all
        { buff_head := [{ addr := 1, data_len := 2, data := ascii "a ", data_ptr := 0 }],
          curr_elem := some 1, curr_offset := 2 } [0] 1
      = some { st := { buff_head := [{ addr := 1, data_len := 1, data := ascii "a ",
                                       data_ptr := 1 }],
                       curr_elem := some 1, curr_offset := 1 },
               buf := [97], read_cnt := 1, calls := 1 } ∧
    ¬ ((1 : Nat) < ({ addr := 1, data_len := 1, data := ascii "a ", data_ptr := 1 } :
          rw_buff_frag).data_len) := by
  refine ⟨?_, rfl, by decide⟩
  exact Reachable.next (rwdev_write rwdev_init 1 (ascii "a ") 0).1
    { st := { buff_head := [{ addr := 1, data_len := 2, data := ascii "a ", data_ptr := 0 }],
              curr_elem := some 1, curr_offset := 2 },
      len := 2, mem := TokenBuf.copied (ascii "a ") }
    (Reachable.enqueue rwdev_init 1 (ascii "a ") 0 Reachable.init
      (fun f hf => by simp [rwdev_init] at hf))
    rfl

/-- Witness for C17: the Dequeue(1) that trims "a " under a cursor at offset 2. -/
theorem cursor_offset_le_data_len_witness :
    0 ≤ 1 ∧
    1 ≤ ({ addr := 1, data_len := 1, data := ascii "a ", data_ptr := 1 } : rw_buff_frag).data_len :=
  cursor_offset_le_data_len
    { buff_head := [{ addr := 1, data_len := 2, data := ascii "a ", data_ptr := 0 }],
      curr_elem := some 1, curr_offset := 2 }
    (Reachable.next (rwdev_write rwdev_init 1 (ascii "a ") 0).1
      { st := { buff_head := [{ addr := 1, data_len := 2, data := ascii "a ", data_ptr := 0 }],
                curr_elem := some 1, curr_offset := 2 },
        len := 2, mem := TokenBuf.copied (ascii "a ") }
      (Reachable.enqueue rwdev_init 1 (ascii "a ") 0 Reachable.init
        (fun f hf => by simp [rwdev_init] at hf))
      rfl)
    1 xfer_all [0] 1
    { st := { buff_head := [{ addr := 1, data_len := 1, data := ascii "a ", data_ptr := 1 }],
              curr_elem := some 1, curr_offset := 1 },
      buf := [97], read_cnt := 1, calls := 1 }
    rfl
    { addr := 1, data_len := 1, data := ascii "a ", data_ptr := 1 }
    (List.mem_cons_self _ _) rfl

/-! ## Draining the queue -/

theorem drop_bytes_zero (q : List rw_buff_frag) (cur : Option Nat) (off : Nat) :
    drop_bytes q cur off 0 = { buff_head := q, curr_elem := cur, curr_offset := off } := by
  cases q <;> simp [drop_bytes]

theorem drop_bytes_length_le (q : List rw_buff_frag) (cur : Option Nat) (off c : Nat) :
    (drop_bytes q cur off c).buff_head.length ≤ q.length := by
  obtain ⟨k, hk | ⟨f, rest, j, hd, _, _, hk⟩⟩ := drop_bytes_shape q cur off c
  · rw [hk, List.length_drop]; omega
  · have := congrArg List.length hd
    rw [hk]
    simp only [List.length_cons, List.length_drop] at this ⊢
    omega

/-- A series of Dequeue calls with complete transfers returns and leaves the
state of one Dequeue of the summed count. -/
theorem rwdev_read_seq_all (fuel : Nat) (buf : List Nat) :
    ∀ (counts : List Nat) (s : State), s.buff_head.length ≤ fuel →
      rwdev_read_seq fuel buf s counts
        = some (drop_bytes s.buff_head s.curr_elem s.curr_offset counts.sum) := by
  intro counts
  induction counts with
  | nil => intro s _; simp [rwdev_read_seq, drop_bytes_zero]
  | cons c cs ih =>
    intro s hfuel
    obtain ⟨r, hr, hst, -⟩ := rwdev_read_all s buf c fuel hfuel
    have hlen : r.st.buff_head.length ≤ fuel := by
      rw [hst]
      exact le_trans (drop_bytes_length_le _ _ _ _) hfuel
    simp only [rwdev_read_seq, hr, ih r.st hlen, List.sum_cons]
    rw [hst, drop_bytes_split]

theorem rwdev_read_seq_reachable (fuel : Nat) (buf : List Nat) :
    ∀ (counts : List Nat) (s t : State), Reachable s →
      rwdev_read_seq fuel buf s counts = some t → Reachable t := by
  intro counts
  induction counts with
  | nil =>
    intro s t hs h
    simp only [rwdev_read_seq, Option.some.injEq] at h
    rw [← h]; exact hs
  | cons c cs ih =>
    intro s t hs h
    unfold rwdev_read_seq at h
    cases hr : rwdev_read fuel xfer_all s buf c with
    | none => simp [hr] at h
    | some r =>
      simp only [hr] at h
      exact ih r.st t (Reachable.dequeue s fuel xfer_all buf c r hs hr) h

theorem total_len_eq_zero (q : List rw_buff_frag) (h : total_len q = 0) :
    ∀ f ∈ q, f.data_len = 0 := by
  induction q with
  | nil => intro f hf; simp at hf
  | cons g rest ih =>
    rw [total_len_cons] at h
    intro f hf
    rcases List.mem_cons.mp hf with rfl | hf2
    · omega
    · exact ih (by omega) f hf2

theorem total_len_of_zero (q : List rw_buff_frag) (h : ∀ f ∈ q, f.data_len = 0) :
    total_len q = 0 := by
  induction q with
  | nil => rfl
  | cons g rest ih =>
    rw [total_len_cons, h g (List.mem_cons_self _ _),
      ih (fun f hf => h f (List.mem_cons_of_mem _ hf))]

theorem drop_bytes_drained :
    ∀ (q : List rw_buff_frag) (cur : Option Nat) (off c : Nat), total_len q ≤ c →
      ∀ f ∈ (drop_bytes q cur off c).buff_head, f.data_len = 0 := by
  intro q
  induction q with
  | nil => intro cur off c _ f hf; simp [drop_bytes] at hf
  | cons g rest ih =>
    intro cur off c hc
    rw [total_len_cons] at hc
    by_cases hc0 : c = 0
    · simp only [drop_bytes, hc0, if_true]
      exact total_len_eq_zero _ (by rw [total_len_cons]; omega)
    · have hdel : g.data_len ≤ c := by omega
      simp only [drop_bytes, hc0, hdel, if_true, if_false]
      exact ih _ _ _ (by omega)

theorem drop_bytes_drained_nil :
    ∀ (q : List rw_buff_frag) (cur : Option Nat) (off c : Nat), total_len q ≤ c →
      (∀ f ∈ q, 0 < f.data_len) → (drop_bytes q cur off c).buff_head = [] := by
  intro q
  induction q with
  | nil => intro cur off c _ _; simp [drop_bytes]
  | cons g rest ih =>
    intro cur off c hc hpos
    rw [total_len_cons] at hc
    have hg := hpos g (List.mem_cons_self _ _)
    have hc0 : c ≠ 0 := by omega
    have hdel : g.data_len ≤ c := by omega
    simp only [drop_bytes, hc0, hdel, if_true, if_false]
    exact ih _ _ _ (by omega) (fun f hf => hpos f (List.mem_cons_of_mem _ hf))

theorem scan_list_mem :
    ∀ (l : List rw_buff_frag) (off : Nat) (p : rw_buff_frag × Nat), p ∈ scan_list l off →
      p.1 ∈ l := by
  intro l off p hp
  cases l with
  | nil => simp [scan_list] at hp
  | cons f rest =>
    simp only [scan_list, List.mem_cons, List.mem_map] at hp
    rcases hp with rfl | ⟨g, hg, rfl⟩
    · exact List.mem_cons_self _ _
    · exact List.mem_cons_of_mem _ hg

/-- Next reports no token when no linked fragment has a live byte. -/
theorem buff_get_word_no_bytes (s : State) (hc : cursor_ok s)
    (h0 : ∀ f ∈ s.buff_head, f.data_len = 0) : ∃ r, buff_get_word s = some r ∧ r.len = 0 := by
  obtain ⟨r, hr⟩ := buff_get_word_returns s hc
  refine ⟨r, hr, ?_⟩
  rcases buff_get_word_cases s r hr with ⟨-, -, h1, -⟩ | ⟨f0, rest0, off, h1, -, hmem, -⟩
  · rw [h1]
  · rw [h1, word_loop_len_eq_zero_iff]
    rintro p hp ⟨i, j, -, -, hj, -, -⟩
    have := h0 p.1 (hmem _ (scan_list_mem _ _ p hp))
    omega

/-- C14 (as amended): draining resets scanning.  From every reachable state,
with a transfer primitive that copies everything, a series of Dequeue calls
whose requested counts total at least the live byte count returns and leaves
a queue without live bytes (every fragment still linked has length 0, which
only a zero-length Enqueue produces); if every fragment queued before had a
non-zero length, the queue is empty afterwards.  In both cases the next Next
returns and reports no token. -/
theorem drain_then_no_token (s : State) (h : Reachable s) (counts : List Nat)
    (buf : List Nat) (fuel : Nat) (hsum : total_len s.buff_head ≤ counts.sum)
    (hfuel : s.buff_head.length ≤ fuel) :
    ∃ t, rwdev_read_seq fuel buf s counts = some t ∧
      (∀ f ∈ t.buff_head, f.data_len = 0) ∧ total_len t.buff_head = 0 ∧
      ((∀ f ∈ s.buff_head, 0 < f.data_len) → t.buff_head = []) ∧
      ∃ r, buff_get_word t = some r ∧ r.len = 0 := by
  have hseq := rwdev_read_seq_all fuel buf counts s hfuel
  have hreach := rwdev_read_seq_reachable fuel buf counts s _ h hseq
  have hzero := drop_bytes_drained s.buff_head s.curr_elem s.curr_offset counts.sum hsum
  refine ⟨_, hseq, hzero, ?_, ?_, buff_get_word_no_bytes _ (reachable_cursor_ok _ hreach) hzero⟩
  · exact total_len_of_zero _ hzero
  · exact drop_bytes_drained_nil _ _ _ _ hsum

/-- Witness for C14: Enqueue of 5 bytes "ab cd", then Dequeue(2) and Dequeue(3). -/
theorem drain_then_no_token_witness :
    ∃ t, rwdev_read_seq 1 [0, 0, 0] (rwdev_write rwdev_init 1 (ascii "ab cd") 0).1 [2, 3]
          = some t ∧
      (∀ f ∈ t.buff_head, f.data_len = 0) ∧ total_len t.buff_head = 0 ∧
      ((∀ f ∈ (rwdev_write rwdev_init 1 (ascii "ab cd") 0).1.buff_head, 0 < f.data_len) →
        t.buff_head = []) ∧
      ∃ r, buff_get_word t = some r ∧ r.len = 0 :=
  drain_then_no_token (rwdev_write rwdev_init 1 (ascii "ab cd") 0).1
    (Reachable.enqueue rwdev_init 1 (ascii "ab cd") 0 Reachable.init
      (fun f hf => by simp [rwdev_init] at hf))
    [2, 3] [0, 0, 0] 1 (by decide) (by decide)

/-- C14 (counterexample): the state after Enqueue("ab") and an Enqueue of zero
bytes is reachable and holds 2 live bytes; Dequeue(2) with a complete transfer
returns 2 and the zero-length fragment is still linked, so the queue is not
empty. -/
theorem drain_leaves_empty_fragment :
    Reachable (rwdev_write (rwdev_write rwdev_init 1 (ascii "ab") 0).1 2 [] 0).1 ∧
    total_len (rwdev_write (rwdev_write rwdev_init 1 (ascii "ab") 0).1 2 [] 0).1.buff_head = 2 ∧
    rwdev_read 2 xfer_all (rwdev_write (rwdev_write rwdev_init 1 (ascii "ab") 0).1 2 [] 0).1
        [0, 0] 2
      = some { st := { buff_head := [{ addr := 2, data_len := 0, data := [], data_ptr := 0 }],
                       curr_elem := none, curr_offset := 0 },
               buf := ascii "ab", read_cnt := 2, calls := 1 } ∧
    [({ addr := 2, data_len := 0, data := [], data_ptr := 0 } : rw_buff_frag)] ≠ [] := by
  refine ⟨?_, rfl, rfl, by decide⟩
  exact Reachable.enqueue _ 2 [] 0
    (Reachable.enqueue rwdev_init 1 (ascii "ab") 0 Reachable.init
      (fun f hf => by simp [rwdev_init] at hf))
    (fun f hf => by
      simp only [rwdev_write, rwdev_init, ne_eq, not_true_eq_false, if_false, List.nil_append,
        List.mem_singleton] at hf
      rw [hf]
      decide)

/-! ## Next terminates: the nodes one call examines -/

/-- The two searches at the head of the loop body of `buff_get_word` both
succeed exactly when the fragment holds a complete token from `off` on. -/
theorem seek_has_word (f : rw_buff_frag) (off : Nat) :
    (has_word f off ∧ ∃ start e : Nat,
      seek_first_char (frag_byte f) off f.data_len = (start : Int) ∧
      seek_separator (frag_byte f) start f.data_len = (e : Int)) ∨
    (¬ has_word f off ∧
      (seek_first_char (frag_byte f) off f.data_len = -1 ∨
        ∃ start : Nat, seek_first_char (frag_byte f) off f.data_len = (start : Int) ∧
          seek_separator (frag_byte f) start f.data_len = -1)) := by
  rcases seek_first_char_spec (frag_byte f) off f.data_len with
    ⟨hs, hsall⟩ | ⟨start, hs, hs1, hs2, hs3, hs4⟩
  · right
    refine ⟨?_, Or.inl hs⟩
    rintro ⟨i, j, hi, hij, hj, hni, -⟩
    have := hsall i hi (by omega)
    rw [this] at hni
    exact Bool.noConfusion hni
  · rcases seek_separator_spec (frag_byte f) start f.data_len with
      ⟨he, heall⟩ | ⟨e, he, he1, he2, he3, he4⟩
    · right
      refine ⟨?_, Or.inr ⟨start, hs, he⟩⟩
      rintro ⟨i, j, hi, hij, hj, hni, hsj⟩
      have hsi : start ≤ i := by
        by_contra hlt
        have := hs4 i hi (by omega)
        rw [this] at hni
        exact Bool.noConfusion hni
      have := heall j (by omega) hj
      rw [this] at hsj
      exact Bool.noConfusion hsj
    · left
      have hse : start < e := by
        rcases Nat.lt_or_ge start e with h | h
        · exact h
        · have : e = start := by omega
          rw [this, hs3] at he3
          exact Bool.noConfusion he3
      exact ⟨⟨start, e, hs1, hse, he2, hs3, he3⟩, start, e, hs, he⟩

/-- The loop examines the head node and stops there when it holds a complete
token; otherwise it goes on to the newer nodes. -/
theorem word_loop_visited_cons (f : rw_buff_frag) (rest : List rw_buff_frag) (off : Nat) :
    (has_word f off ∧ word_loop_visited (f :: rest) off = [f]) ∨
    (¬ has_word f off ∧ word_loop_visited (f :: rest) off = f :: word_loop_visited rest 0) := by
  rcases seek_has_word f off with ⟨hw, start, e, hs, he⟩ | ⟨hw, hs | ⟨start, hs, he⟩⟩
  · left
    have hn1 : ¬ ((start : Int) < 0) := by omega
    have hn2 : ¬ ((e : Int) < 0) := by omega
    exact ⟨hw, by simp [word_loop_visited, hs, he, hn1, hn2]⟩
  · right
    exact ⟨hw, by simp [word_loop_visited, hs]⟩
  · right
    have hn1 : ¬ ((start : Int) < 0) := by omega
    exact ⟨hw, by simp [word_loop_visited, hs, he, hn1]⟩

/-- The nodes the loop examines are an initial part of its range; the loop
returns 0 only after examining the whole range, and otherwise stops with the
cursor on the last node examined. -/
theorem word_loop_visited_spec (q : List rw_buff_frag) :
    ∀ (l : List rw_buff_frag) (off : Nat),
      (∃ post, l = word_loop_visited l off ++ post) ∧
      ((word_loop q l off).len = 0 → word_loop_visited l off = l) ∧
      ((word_loop q l off).len ≠ 0 → ∃ f, (word_loop_visited l off).getLast? = some f ∧
        (word_loop q l off).st.curr_elem = some f.addr) := by
  intro l
  induction l with
  | nil =>
    intro off
    exact ⟨⟨[], rfl⟩, fun _ => rfl, fun h => absurd rfl h⟩
  | cons f rest ih =>
    intro off
    rcases word_loop_visited_cons f rest off with ⟨hw, hv⟩ | ⟨hw, hv⟩
    · rcases word_loop_cons q f rest off with ⟨-, start, e, nxt, htok, h⟩ | ⟨hnw, -⟩
      · obtain ⟨h1, h2, h3, -⟩ := htok
        rw [hv, h]
        refine ⟨⟨rest, rfl⟩, fun h0 => ?_, fun _ => ⟨f, rfl, rfl⟩⟩
        simp only at h0
        omega
      · exact absurd hw hnw
    · rcases word_loop_cons q f rest off with ⟨hw2, -⟩ | ⟨-, h⟩
      · exact absurd hw2 hw
      · obtain ⟨⟨post, hpost⟩, hz, hnz⟩ := ih 0
        rw [hv, h]
        refine ⟨⟨post, by rw [List.cons_append, ← hpost]⟩, fun h0 => by rw [hz h0],
          fun h0 => ?_⟩
        obtain ⟨g, hg, hcur⟩ := hnz h0
        refine ⟨g, ?_, hcur⟩
        cases hvr : word_loop_visited rest 0 with
        | nil => rw [hvr] at hg; simp at hg
        | cons a t =>
          rw [hvr] at hg
          rw [List.getLast?_cons_cons]
          exact hg

theorem nodes_from_suffix :
    ∀ (q : List rw_buff_frag) (a : Nat) (l : List rw_buff_frag), nodes_from q a = some l →
      ∃ pre, q = pre ++ l := by
  intro q
  induction q with
  | nil => intro a l h; simp [nodes_from] at h
  | cons f rest ih =>
    intro a l h
    by_cases hfa : f.addr = a
    · simp only [nodes_from, hfa, if_true, Option.some.injEq] at h
      exact ⟨[], by rw [← h]; rfl⟩
    · simp only [nodes_from, hfa, if_false] at h
      obtain ⟨pre, hpre⟩ := ih a l h
      exact ⟨f :: pre, by rw [hpre]; rfl⟩

/-- C19: Next terminates.  In every reachable state, also one whose queue
is not empty and holds no complete token, the call returns.  The nodes it
examines form one contiguous run of the list in list order (oldest to
newest), so the cursor only moves toward the newest node and no node is
examined twice; there are at most as many loop iterations as linked nodes.
A call that returns 0 has examined every node up to the newest one and ends
with `curr_elem` at `&buff_head`; a call that returns a token ends with the
cursor on the last node it examined. -/
theorem buff_get_word_terminates (s : State) (h : Reachable s) :
    ∃ r, buff_get_word s = some r ∧
      (∃ pre post, s.buff_head = pre ++ buff_get_word_visited s ++ post) ∧
      (buff_get_word_visited s).length ≤ s.buff_head.length ∧
      ((buff_get_word_visited s).map rw_buff_frag.addr).Nodup ∧
      (r.len = 0 → r.st.curr_elem = none ∧ ∃ pre, s.buff_head = pre ++ buff_get_word_visited s) ∧
      (r.len ≠ 0 → ∃ f, (buff_get_word_visited s).getLast? = some f ∧
        r.st.curr_elem = some f.addr) := by
  have hc := reachable_cursor_ok s h
  have hnd := (reachable_offset_ok s h).1
  obtain ⟨r, hr⟩ := buff_get_word_returns s hc
  have key : ∃ l off pre, s.buff_head = pre ++ l ∧ buff_get_word_visited s = word_loop_visited l off ∧
      (r = word_loop s.buff_head l off ∨
        (l = [] ∧ r = { st := s, len := 0, mem := TokenBuf.unset } ∧ s.curr_elem = none)) := by
    unfold buff_get_word at hr
    unfold buff_get_word_visited
    cases hcur : s.curr_elem with
    | none =>
      rw [hcur] at hr
      cases hq : s.buff_head with
      | nil =>
        rw [hq] at hr
        simp only [Option.some.injEq] at hr
        exact ⟨[], 0, [], rfl, rfl, Or.inr ⟨rfl, hr.symm, rfl⟩⟩
      | cons f rest =>
        rw [hq] at hr
        simp only [Option.some.injEq] at hr
        exact ⟨f :: rest, 0, [], rfl, rfl, Or.inl hr.symm⟩
    | some a =>
      rw [hcur] at hr
      cases hn : nodes_from s.buff_head a with
      | none => simp [hn] at hr
      | some l =>
        simp only [hn, Option.some.injEq] at hr
        obtain ⟨pre, hpre⟩ := nodes_from_suffix _ _ _ hn
        exact ⟨l, s.curr_offset, pre, hpre, by simp only [hn], Or.inl hr.symm⟩
  obtain ⟨l, off, pre, hq, hv, hrl⟩ := key
  obtain ⟨⟨post, hpost⟩, hz, hnz⟩ := word_loop_visited_spec s.buff_head l off
  have hrun : s.buff_head = pre ++ buff_get_word_visited s ++ post := by
    rw [hv, List.append_assoc, ← hpost, ← hq]
  refine ⟨r, hr, ⟨pre, post, hrun⟩, ?_, ?_, ?_, ?_⟩
  · have := congrArg List.length hrun
    simp only [List.length_append] at this
    omega
  · unfold addrs_nodup at hnd
    rw [hrun, List.map_append, List.map_append] at hnd
    exact (List.nodup_append.mp (List.nodup_append.mp hnd).1).2.1
  · intro h0
    rcases hrl with hrl | ⟨hl, hrl, hcur⟩
    · rw [hrl] at h0 ⊢
      refine ⟨word_loop_len_zero_curr_elem _ _ _ h0, pre, ?_⟩
      rw [hv, hz h0, ← hq]
    · subst hl
      rw [hrl]
      refine ⟨hcur, pre, ?_⟩
      rw [hv]
      exact hq
  · intro h0
    rcases hrl with hrl | ⟨-, hrl, -⟩
    · rw [hrl] at h0 ⊢
      rw [hv]
      exact hnz h0
    · rw [hrl] at h0
      exact absurd rfl h0

/-- Witness for C19: "abc" queued, a non-empty queue without a complete
token. -/
theorem buff_get_word_terminates_witness :
    ∃ r, buff_get_word (rwdev_write rwdev_init 1 (ascii "abc") 0).1 = some r ∧
      (∃ pre post, (rwdev_write rwdev_init 1 (ascii "abc") 0).1.buff_head
          = pre ++ buff_get_word_visited (rwdev_write rwdev_init 1 (ascii "abc") 0).1 ++ post) ∧
      (buff_get_word_visited (rwdev_write rwdev_init 1 (ascii "abc") 0).1).length
        ≤ (rwdev_write rwdev_init 1 (ascii "abc") 0).1.buff_head.length ∧
      ((buff_get_word_visited (rwdev_write rwdev_init 1 (ascii "abc") 0).1).map
        rw_buff_frag.addr).Nodup ∧
      (r.len = 0 → r.st.curr_elem = none ∧
        ∃ pre, (rwdev_write rwdev_init 1 (ascii "abc") 0).1.buff_head
          = pre ++ buff_get_word_visited (rwdev_write rwdev_init 1 (ascii "abc") 0).1) ∧
      (r.len ≠ 0 →
        ∃ f, (buff_get_word_visited (rwdev_write rwdev_init 1 (ascii "abc") 0).1).getLast?
            = some f ∧
          r.st.curr_elem = some f.addr) :=
  buff_get_word_terminates _
    (Reachable.enqueue rwdev_init 1 (ascii "abc") 0 Reachable.init
      (fun f hf => by simp [rwdev_init] at hf))

/-! ## Passes of the scanner -/

theorem word_loop_len_zero_st (q : List rw_buff_frag) :
    ∀ (l : List rw_buff_frag) (off : Nat), l ≠ [] → (word_loop q l off).len = 0 →
      word_loop q l off
        = { st := { buff_head := q, curr_elem := none, curr_offset := 0 },
            len := 0, mem := TokenBuf.unset } := by
  intro l
  induction l with
  | nil => intro off h; exact absurd rfl h
  | cons f rest ih =>
    intro off _ h0
    rcases word_loop_cons q f rest off with ⟨-, start, e, nxt, htok, h⟩ | ⟨-, h⟩
    · obtain ⟨h1, h2, h3, -⟩ := htok
      rw [h] at h0
      simp only at h0
      omega
    · rw [h] at h0 ⊢
      cases rest with
      | nil => rfl
      | cons g t => exact ih 0 (List.cons_ne_nil _ _) h0

/-- A call that returns a token leaves the cursor on a node of the range, at
an offset within that node, and beyond the old offset when the node is the
one the scan started on. -/
theorem word_loop_pos (q : List rw_buff_frag) :
    ∀ (l : List rw_buff_frag) (off : Nat), (word_loop q l off).len ≠ 0 →
      ∃ pre g rest nxt, l = pre ++ g :: rest ∧
        (word_loop q l off).st = { buff_head := q, curr_elem := some g.addr, curr_offset := nxt } ∧
        nxt ≤ g.data_len ∧ (pre = [] → off < nxt) := by
  intro l
  induction l with
  | nil => intro off h; simp [word_loop] at h
  | cons f rest ih =>
    intro off hlen
    rcases word_loop_cons q f rest off with ⟨-, start, e, nxt, htok, h⟩ | ⟨-, h⟩
    · obtain ⟨h1, h2, h3, h4, -⟩ := htok
      exact ⟨[], f, rest, nxt, rfl, by rw [h], h4, fun _ => by omega⟩
    · rw [h] at hlen ⊢
      obtain ⟨pre, g, rest2, nxt, hl, hst, hn, -⟩ := ih 0 hlen
      exact ⟨f :: pre, g, rest2, nxt, by rw [hl]; rfl, hst, hn,
        fun hp => absurd hp (List.cons_ne_nil _ _)⟩

theorem nodes_from_nodup :
    ∀ (pre : List rw_buff_frag) (f : rw_buff_frag) (rest : List rw_buff_frag),
      ((pre ++ f :: rest).map rw_buff_frag.addr).Nodup →
      nodes_from (pre ++ f :: rest) f.addr = some (f :: rest) := by
  intro pre
  induction pre with
  | nil => intro f rest _; simp [nodes_from]
  | cons p pre ih =>
    intro f rest hnd
    simp only [List.cons_append, List.map_cons, List.nodup_cons, List.mem_map, not_exists,
      not_and] at hnd
    have hne : ¬ p.addr = f.addr := fun he => hnd.1 f (by simp) he.symm
    simp only [List.cons_append, nodes_from, hne, if_false]
    exact ih f rest hnd.2

theorem scan_weight_append (a b : List rw_buff_frag) :
    scan_weight (a ++ b) = scan_weight a + scan_weight b := by
  induction a with
  | nil => simp [scan_weight]
  | cons g t ih =>
    show g.data_len + 1 + scan_weight (t ++ b) = (g.data_len + 1 + scan_weight t) + scan_weight b
    rw [ih]
    omega

/-- A pass that continues from a cursor on a linked node ends: within a
number of calls bounded by the bytes and nodes still ahead of the cursor, a
call returns 0 and leaves the cursor at `&buff_head` with offset 0. -/
theorem next_pass_from_cursor :
    ∀ (n : Nat) (q pre : List rw_buff_frag) (f : rw_buff_frag) (rest : List rw_buff_frag)
      (off : Nat), q = pre ++ f :: rest → (q.map rw_buff_frag.addr).Nodup →
      (f.data_len - off) + 1 + scan_weight rest < n →
      ∃ toks, ∀ fuel, n ≤ fuel →
        next_pass fuel { buff_head := q, curr_elem := some f.addr, curr_offset := off }
          = some (toks, { buff_head := q, curr_elem := none, curr_offset := 0 }) := by
  intro n
  induction n with
  | zero => intro q pre f rest off _ _ h; omega
  | succ n ih =>
    intro q pre f rest off hq hnd hμ
    have hget : buff_get_word { buff_head := q, curr_elem := some f.addr, curr_offset := off }
        = some (word_loop q (f :: rest) off) := by
      have hn : nodes_from q f.addr = some (f :: rest) := by
        rw [hq]; exact nodes_from_nodup pre f rest (hq ▸ hnd)
      simp only [buff_get_word, hn]
    by_cases hlen : (word_loop q (f :: rest) off).len = 0
    · refine ⟨[], fun fuel hfuel => ?_⟩
      obtain ⟨k, rfl⟩ : ∃ k, fuel = k + 1 := ⟨fuel - 1, by omega⟩
      have hst := word_loop_len_zero_st q (f :: rest) off (List.cons_ne_nil _ _) hlen
      simp only [next_pass, hget, hlen, if_true, hst]
    · obtain ⟨pre2, g, rest2, nxt, hl, hst, hnx, hoff⟩ := word_loop_pos q (f :: rest) off hlen
      have hq2 : q = (pre ++ pre2) ++ g :: rest2 := by
        rw [hq, hl, List.append_assoc]
      have hμ2 : (g.data_len - nxt) + 1 + scan_weight rest2 < n := by
        cases pre2 with
        | nil =>
          simp only [List.nil_append, List.cons.injEq] at hl
          obtain ⟨hfg, hrr⟩ := hl
          subst hfg
          subst hrr
          have := hoff rfl
          omega
        | cons p t =>
          simp only [List.cons_append, List.cons.injEq] at hl
          obtain ⟨-, hrr⟩ := hl
          rw [hrr, scan_weight_append] at hμ
          simp only [scan_weight] at hμ
          omega
      obtain ⟨toks, htoks⟩ := ih q (pre ++ pre2) g rest2 nxt hq2 hnd hμ2
      refine ⟨((word_loop q (f :: rest) off).len, (word_loop q (f :: rest) off).mem) :: toks,
        fun fuel hfuel => ?_⟩
      obtain ⟨k, rfl⟩ : ∃ k, fuel = k + 1 := ⟨fuel - 1, by omega⟩
      have hk := htoks k (by omega)
      simp only [next_pass, hget, hlen, if_false, hst, hk]

/-- Passes repeat as far as the queue state determines the tokens.  For
every state with pairwise different node addresses and the cursor at
`&buff_head`, a pass of Next calls ends after finitely many calls with the
cursor back at `&buff_head` and the list unchanged, and a pass started in the
state it leaves yields the same list of return values and buffers and leaves
that same state.  A copy that leaves its fragment appears in these lists as
`TokenBuf.overrun`: the bytes it picks up outside the buffer are not part of
the state and nothing is said about them. -/
theorem next_pass_stable (s : State) (hcur : s.curr_elem = none) (hnd : addrs_nodup s) :
    ∃ toks t N, t.buff_head = s.buff_head ∧ t.curr_elem = none ∧
      ∀ fuel, N ≤ fuel →
        next_pass fuel s = some (toks, t) ∧ next_pass fuel t = some (toks, t) := by
  obtain ⟨q, cur, off⟩ := s
  simp only at hcur
  subst hcur
  unfold addrs_nodup at hnd
  simp only at hnd
  cases q with
  | nil =>
    refine ⟨[], { buff_head := [], curr_elem := none, curr_offset := off }, 1, rfl, rfl,
      fun fuel hfuel => ?_⟩
    obtain ⟨k, rfl⟩ : ∃ k, fuel = k + 1 := ⟨fuel - 1, by omega⟩
    simp [next_pass, buff_get_word]
  | cons f rest =>
    have hget : ∀ o, buff_get_word { buff_head := f :: rest, curr_elem := none, curr_offset := o }
        = some (word_loop (f :: rest) (f :: rest) 0) := fun o => rfl
    by_cases hlen : (word_loop (f :: rest) (f :: rest) 0).len = 0
    · have hst := word_loop_len_zero_st (f :: rest) (f :: rest) 0 (List.cons_ne_nil _ _) hlen
      refine ⟨[], { buff_head := f :: rest, curr_elem := none, curr_offset := 0 }, 1, rfl, rfl,
        fun fuel hfuel => ?_⟩
      obtain ⟨k, rfl⟩ : ∃ k, fuel = k + 1 := ⟨fuel - 1, by omega⟩
      simp only [next_pass, hget, hlen, if_true, hst, and_self]
    · obtain ⟨pre2, g, rest2, nxt, hl, hst, -, -⟩ :=
        word_loop_pos (f :: rest) (f :: rest) 0 hlen
      obtain ⟨toks, htoks⟩ := next_pass_from_cursor
        ((g.data_len - nxt) + 1 + scan_weight rest2 + 1) (f :: rest) pre2 g rest2 nxt hl hnd
        (Nat.lt_succ_self _)
      refine ⟨((word_loop (f :: rest) (f :: rest) 0).len,
          (word_loop (f :: rest) (f :: rest) 0).mem) :: toks,
        { buff_head := f :: rest, curr_elem := none, curr_offset := 0 },
        (g.data_len - nxt) + 1 + scan_weight rest2 + 1 + 1, rfl, rfl, fun fuel hfuel => ?_⟩
      obtain ⟨k, rfl⟩ : ∃ k, fuel = k + 1 := ⟨fuel - 1, by omega⟩
      have hk := htoks k (by omega)
      simp only [next_pass, hget, hlen, if_false, hst, hk, and_self]

/-- C13 (evaluation at the failing input): the state after
Enqueue(" abcdef ") is reachable with the cursor at `&buff_head`.  Every pass
over it consists of one token call and the call that returns 0, and the one
token, of length 8, is copied from offset 1 of the 8-byte fragment: its last
byte is read from outside the fragment's buffer, so it is not fixed by the
queue state and the tokens of two passes need not be identical. -/
theorem next_pass_token_overruns :
    Reachable (rwdev_write rwdev_init 1 (ascii " abcdef ") 0).1 ∧
    (rwdev_write rwdev_init 1 (ascii " abcdef ") 0).1.curr_elem = none ∧
    next_pass 2 (rwdev_write rwdev_init 1 (ascii " abcdef ") 0).1
      = some ([(8, TokenBuf.overrun)],
              { buff_head := [{ addr := 1, data_len := 8, data := ascii " abcdef ",
                                data_ptr := 0 }],
                curr_elem := none, curr_offset := 0 }) ∧
    next_pass 2
        { buff_head := [{ addr := 1, data_len := 8, data := ascii " abcdef ", data_ptr := 0 }],
          curr_elem := none, curr_offset := 0 }
      = some ([(8, TokenBuf.overrun)],
              { buff_head := [{ addr := 1, data_len := 8, data := ascii " abcdef ",
                                data_ptr := 0 }],
                curr_elem := none, curr_offset := 0 }) ∧
    seek_first_char
      (frag_byte { addr := 1, data_len := 8, data := ascii " abcdef ", data_ptr := 0 }) 0 8 = 1 ∧
    memcpy_frag { addr := 1, data_len := 8, data := ascii " abcdef ", data_ptr := 0 } 1 8
      = TokenBuf.overrun ∧
    ¬ (1 + 8 ≤ (8 : Nat)) := by
  refine ⟨Reachable.enqueue rwdev_init 1 (ascii " abcdef ") 0 Reachable.init
      (fun f hf => by simp [rwdev_init] at hf), rfl, rfl, rfl, rfl, rfl, by decide⟩

/-! ## Next: the token and the scan offset -/

/-- When the loop of `buff_get_word` returns a non-zero length, it stopped on
a node of its range holding a complete token; that node was scanned from the
loop's start offset if it is the first node of the range and from 0
otherwise. -/
theorem word_loop_token_pos (q : List rw_buff_frag) :
    ∀ (l : List rw_buff_frag) (off : Nat), (word_loop q l off).len ≠ 0 →
      ∃ pre f rest o start e nxt, l = pre ++ f :: rest ∧
        (pre = [] ∧ o = off ∨ pre ≠ [] ∧ o = 0) ∧ token_at f o start e nxt ∧
        word_loop q l off
          = { st := { buff_head := q, curr_elem := some f.addr, curr_offset := nxt },
              len := nxt - o, mem := memcpy_frag f start (nxt - o) } := by
  intro l
  induction l with
  | nil => intro off h; simp [word_loop] at h
  | cons f rest ih =>
    intro off hlen
    rcases word_loop_cons q f rest off with ⟨-, start, e, nxt, htok, h⟩ | ⟨-, h⟩
    · exact ⟨[], f, rest, off, start, e, nxt, rfl, Or.inl ⟨rfl, rfl⟩, htok, h⟩
    · rw [h] at hlen
      obtain ⟨pre, g, rest2, o, start, e, nxt, hl, ho, htok, hw⟩ := ih 0 hlen
      refine ⟨f :: pre, g, rest2, 0, start, e, nxt, by rw [hl]; rfl,
        Or.inr ⟨List.cons_ne_nil _ _, rfl⟩, ?_, ?_⟩
      · rcases ho with ⟨-, ho⟩ | ⟨-, ho⟩ <;> rw [ho] at htok <;> exact htok
      · rcases ho with ⟨-, ho⟩ | ⟨-, ho⟩ <;> rw [ho] at hw <;> exact h.trans hw

/-- A call of Next that returns a non-zero length ran the scanning loop on a
final part of the list: the whole list from offset 0 when the cursor was at
`&buff_head`, the part from the cursor's node on, from `curr_offset`,
otherwise. -/
theorem buff_get_word_scan (s : State) (r : WordOut) (hr : buff_get_word s = some r)
    (hlen : r.len ≠ 0) :
    ∃ pre f0 rest0 off, s.buff_head = pre ++ f0 :: rest0 ∧
      r = word_loop s.buff_head (f0 :: rest0) off ∧
      (s.curr_elem = some f0.addr ∧ off = s.curr_offset ∨ s.curr_elem = none ∧ off = 0) := by
  unfold buff_get_word at hr
  cases hc : s.curr_elem with
  | none =>
    rw [hc] at hr
    cases hq : s.buff_head with
    | nil =>
      rw [hq] at hr
      simp only [Option.some.injEq] at hr
      rw [← hr] at hlen
      exact absurd rfl hlen
    | cons f rest =>
      rw [hq] at hr
      simp only [Option.some.injEq] at hr
      exact ⟨[], f, rest, 0, rfl, hr.symm, Or.inr ⟨rfl, rfl⟩⟩
  | some a =>
    rw [hc] at hr
    cases hn : nodes_from s.buff_head a with
    | none => simp [hn] at hr
    | some l =>
      simp only [hn, Option.some.injEq] at hr
      obtain ⟨f, rest, hl, hfa, -⟩ := nodes_from_some _ _ _ hn
      obtain ⟨pre, hpre⟩ := nodes_from_suffix _ _ _ hn
      subst hl
      exact ⟨pre, f, rest, s.curr_offset, hpre, hr.symm, Or.inl ⟨by rw [hfa], rfl⟩⟩

/-- Every reachable state keeps the live region of each fragment inside its
buffer. -/
theorem reachable_frag_ok (s : State) (h : Reachable s) :
    ∀ f ∈ s.buff_head, f.data_ptr + f.data_len ≤ f.data.length := by
  induction h with
  | init => intro f hf; simp [rwdev_init] at hf
  | enqueue s p payload n_copied _ _ ih =>
    unfold rwdev_write
    by_cases hn : n_copied = 0
    · simp only [hn, ne_eq, not_true_eq_false, if_false]
      intro f hf
      rcases List.mem_append.mp hf with hf1 | hf2
      · exact ih f hf1
      · simp only [List.mem_singleton] at hf2
        rw [hf2]
        simp
    · simp only [hn, ne_eq, not_false_eq_true, if_true]
      exact ih
  | dequeue s fuel xfer buf count r _ hr ih =>
    refine rwdev_read_loop_invariant
      (fun t => ∀ f ∈ t.buff_head, f.data_ptr + f.data_len ≤ f.data.length) xfer count
      (fun f rest r0 hq hp => ?_) fuel _ r ih hr
    have hk := confirmed_len_le xfer count f r0
    have hf := hp f (by rw [hq]; exact List.mem_cons_self _ _)
    have hrest : ∀ g ∈ rest, g.data_ptr + g.data_len ≤ g.data.length :=
      fun g hg => hp g (by rw [hq]; exact List.mem_cons_of_mem _ hg)
    rw [rwdev_read_body_st]
    by_cases hdel : f.data_len = confirmed_len xfer count f r0
    · rw [if_pos hdel]
      exact hrest
    · rw [if_neg hdel]
      intro g hg
      rcases List.mem_cons.mp hg with rfl | hg2
      · simp only
        omega
      · exact hrest g hg2
  | next s r _ hr ih =>
    rcases buff_get_word_cases s r hr with ⟨-, -, h1, -⟩ | ⟨f0, rest0, off, h1, -, -, -⟩
    · rw [h1]; exact ih
    · rw [h1, word_loop_buff_head]; exact ih

/-- C7 (as amended): whenever Next returns a token, in a state whose
fragments lie inside their buffers and have pairwise different addresses
(every reachable state is one), the call stopped on one fragment `f` of the
queue, which is the node `curr_elem` points at afterwards.  With `o` the
offset from which the call scans `f` (the cursor offset if the cursor was on
`f` when the call began, 0 otherwise), `start` is the first non-separator
byte at or after `o`, `e` the first separator after `start`, and `nxt` the
first non-separator after `e` (or the fragment length).  When the scan
offset is itself the token start, the returned length is `nxt - start`, the
cursor offset becomes `nxt`, and the token is exactly the byte range
`[start, nxt)` of the fragment: the non-empty separator-free word
`[start, e)` followed by the non-empty run of separators `[e, nxt)`. -/
theorem buff_get_word_token (s : State) (r : WordOut)
    (hwf : ∀ f ∈ s.buff_head, f.data_ptr + f.data_len ≤ f.data.length)
    (hnd : addrs_nodup s)
    (hr : buff_get_word s = some r) (hlen : r.len ≠ 0) :
    ∃ f ∈ s.buff_head, ∃ start e nxt,
      token_at f (scan_offset s f) start e nxt ∧
      r.st.curr_elem = some f.addr ∧
      (scan_offset s f = start →
        r.len = nxt - start ∧ r.st.curr_offset = nxt ∧
        r.mem = TokenBuf.copied (slice f start nxt) ∧
        slice f start nxt = slice f start e ++ slice f e nxt ∧
        (slice f start e).length = e - start ∧
        (∀ b ∈ slice f start e, is_word_separator b = false) ∧
        (slice f e nxt).length = nxt - e ∧
        (∀ b ∈ slice f e nxt, is_word_separator b = true)) := by
  obtain ⟨pre0, f0, rest0, off, hq, h, hoff⟩ := buff_get_word_scan s r hr hlen
  rw [h] at hlen
  obtain ⟨pre, f, rest, o, start, e, nxt, hl, ho, htok, hw⟩ := word_loop_token_pos _ _ _ hlen
  have hfq : f ∈ s.buff_head := by
    rw [hq, hl]
    simp
  have hfwf := hwf f hfq
  have hscan : scan_offset s f = o := by
    unfold scan_offset
    rcases ho with ⟨hp, ho⟩ | ⟨hp, ho⟩
    · subst hp
      simp only [List.nil_append, List.cons.injEq] at hl
      obtain ⟨hff, -⟩ := hl
      subst hff
      rcases hoff with ⟨h1, h2⟩ | ⟨h1, h2⟩
      · rw [if_pos h1, ho, h2]
      · rw [h1, ho, h2]
        simp
    · rcases hoff with ⟨h1, -⟩ | ⟨h1, -⟩
      · have hne : f0.addr ≠ f.addr := by
          cases pre with
          | nil => exact absurd rfl hp
          | cons p t =>
            simp only [List.cons_append, List.cons.injEq] at hl
            obtain ⟨hpf, hrr⟩ := hl
            subst hpf
            unfold addrs_nodup at hnd
            rw [hq, hrr, List.map_append, List.nodup_append] at hnd
            have h2 := hnd.2.1
            simp only [List.map_cons, List.nodup_cons, List.map_append, List.mem_append,
              List.mem_map, List.mem_cons, not_or, not_exists, not_and] at h2
            intro heq
            exact h2.1.2.1 heq
        have hcur : ¬ s.curr_elem = some f.addr := by
          rw [h1]
          intro hh
          exact hne (Option.some.inj hh)
        rw [if_neg hcur, ho]
      · rw [h1, ho]
        simp
  refine ⟨f, hfq, start, e, nxt, by rw [hscan]; exact htok, by rw [h, hw], ?_⟩
  rw [hscan]
  intro hos
  obtain ⟨h1, h2, h3, h4, h5, h6, h7, h8⟩ := htok
  rw [h, hw, hos]
  refine ⟨rfl, rfl, ?_, slice_append f start e nxt (by omega) (by omega),
    slice_length f start e hfwf (by omega), ?_, slice_length f e nxt hfwf h4, ?_⟩
  · simp only
    rw [memcpy_frag_slice f start (nxt - start) hfwf (by omega)]
    congr 2
    omega
  · intro b hb
    obtain ⟨i, hi1, hi2, -, hbi⟩ := slice_mem f start e b hfwf hb
    rw [hbi]
    exact h6 i hi1 hi2
  · intro b hb
    obtain ⟨i, hi1, hi2, -, hbi⟩ := slice_mem f e nxt b hfwf hb
    rw [hbi]
    exact h7 i hi1 hi2

/-- Witness for C7: the second Next after Enqueue(" a b "), with the cursor
on the fragment at offset 3, which is where the token "b " starts. -/
theorem buff_get_word_token_witness :
    ∃ f ∈ [({ addr := 1, data_len := 5, data := ascii " a b ", data_ptr := 0 } : rw_buff_frag)],
      ∃ start e nxt,
        token_at f
          (scan_offset
            { buff_head := [{ addr := 1, data_len := 5, data := ascii " a b ", data_ptr := 0 }],
              curr_elem := some 1, curr_offset := 3 } f) start e nxt ∧
        some 1 = some f.addr ∧
        (scan_offset
            { buff_head := [{ addr := 1, data_len := 5, data := ascii " a b ", data_ptr := 0 }],
              curr_elem := some 1, curr_offset := 3 } f = start →
          2 = nxt - start ∧ 5 = nxt ∧
          TokenBuf.copied (ascii "b ") = TokenBuf.copied (slice f start nxt) ∧
          slice f start nxt = slice f start e ++ slice f e nxt ∧
          (slice f start e).length = e - start ∧
          (∀ b ∈ slice f start e, is_word_separator b = false) ∧
          (slice f e nxt).length = nxt - e ∧
          (∀ b ∈ slice f e nxt, is_word_separator b = true)) :=
  buff_get_word_token
    { buff_head := [{ addr := 1, data_len := 5, data := ascii " a b ", data_ptr := 0 }],
      curr_elem := some 1, curr_offset := 3 }
    { st := { buff_head := [{ addr := 1, data_len := 5, data := ascii " a b ", data_ptr := 0 }],
              curr_elem := some 1, curr_offset := 5 },
      len := 2, mem := TokenBuf.copied (ascii "b ") }
    (by decide) (by unfold addrs_nodup; decide) rfl (by decide)

end RWModule
